import Mathlib

/-
Verification of the canto-curses screen core: the recursive layout
allocator, float placement and border logic of Screen (screen.py), the
focus and dispatch logic, the edit-capture key routing of the input
thread, and the TextBox scroll clamping (text.py).

The source is Python 2, so integer division written with the slash is
floor division; it is modelled with Int.fdiv throughout.
-/

namespace Canto

/-- Orientation along which a window list is partitioned: the orientation
argument of Screen.subw in screen.py, written there as the strings
horizontal and vertical. -/
inductive Orient where
  | horizontal
  | vertical
deriving DecidableEq

/-- Dimension selector for the layout measuring helper of Screen, whose dim
argument is one of the strings width and height. -/
inductive Dim where
  | height
  | width
deriving DecidableEq

/-- The rectangle a window is placed into, as handed to the window setup
helper of Screen: top, left, height, width (screen.py line 200). -/
structure Region where
  top : Int
  left : Int
  height : Int
  width : Int
deriving DecidableEq

/-- A window's sizing policy: the configured maximums window.maxheight and
window.maxwidth read through the get_opt callback (none models an absent
option), and the requested sizes get_height and get_width supplied by the
window class (screen.py lines 156-172). -/
structure Win where
  cfgH : Option Int
  cfgW : Option Int
  reqH : Int → Int
  reqW : Int → Int

/-- Python truthiness fallback used by the size helpers: the statement
if not cfg_height: cfg_height = height makes an absent or zero configured
value fall back to the offered extent. -/
def cfgOr (c : Option Int) (d : Int) : Int :=
  match c with
  | Option.none => d
  | Option.some v => if v = 0 then d else v

/-- Screen size helper for heights (screen.py lines 156-163): the minimum
of the offered height, the configured maximum and the requested height. -/
def subw_size_height (w : Win) (height : Int) : Int :=
  min (min height (cfgOr w.cfgH height)) (w.reqH height)

/-- Screen size helper for widths (screen.py lines 165-172). -/
def subw_size_width (w : Win) (width : Int) : Int :=
  min (min width (cfgOr w.cfgW width)) (w.reqW width)

/-- A layout element handed to the recursive allocator of Screen: either a
window (an immediate) or a nested list of elements (a cmplx sublist,
detected in Python by hasattr on iter support). -/
inductive LUnit where
  | leaf : Win → LUnit
  | group : List LUnit → LUnit

/-- The placement the allocator produces: the same nesting as the input
layout, with every window paired with the Region its curses pad was
created for. -/
inductive Placed where
  | leaf : Win → Region → Placed
  | group : List Placed → Placed

/-- The dimensions of the curses pad allocated for a region by the window
setup helper: curses.newpad with height + 1 rows (one extra row because
the last pad line is not fully writable, screen.py line 253) and exactly
width columns. These are the dimensions of a successfully created pad;
newpad raises curses.error when either requested dimension is not
positive, a failure path modelled by the fallible allocator below. -/
def padDim (d : Dim) (r : Region) : Int :=
  match d with
  | Dim.height => r.height + 1
  | Dim.width => r.width

/-- Python max over a nonempty list of integers. The empty case raises in
Python and is excluded here by the no-empty-group contract of the spec; it
is mapped to 0. -/
def maxList : List Int → Int
  | [] => 0
  | [x] => x
  | x :: y :: xs => max x (maxList (y :: xs))

/-- The per-element sizes the layout measuring helper of Screen collects
(screen.py lines 188-193): a window contributes its pad extent minus one,
a sublist contributes its own recursive layout size. -/
def layoutMeasures (d : Dim) : List Placed → List Int
  | [] => []
  | Placed.leaf _ r :: rest => (padDim d r - 1) :: layoutMeasures d rest
  | Placed.group ps :: rest => maxList (layoutMeasures d ps) :: layoutMeasures d rest

/-- The layout measuring helper of Screen (screen.py lines 178-195): the
max of the collected per-element sizes. -/
def layoutSize (d : Dim) (ps : List Placed) : Int :=
  maxList (layoutMeasures d ps)

/-- List length as an integer, for the unit counters of the allocator. -/
def intLen (l : List α) : Int := (l.length : Int)

/-- Whether a layout element is a nested sublist. -/
def isGroupU : LUnit → Bool
  | LUnit.leaf _ => false
  | LUnit.group _ => true

/-- The number of nested sublists among the children: len of the cmplx
list in the allocator. -/
def countGroups (l : List LUnit) : Int := intLen (l.filter isGroupU)

/-- The first allocation loop of the allocator (screen.py lines 296-314):
immediates take the minimum of remaining extent over remaining units,
configured maximum and requested size, in declared order, consuming their
size from the space and one unit each; nested sublists keep their initial
size 0 and consume nothing yet. Returns the sizes list and the final
used. -/
def immPass (o : Orient) (height width : Int) (used units : Int) :
    List LUnit → List Int × Int
  | [] => ([], used)
  | LUnit.group _ :: rest =>
      let p := immPass o height width used units rest
      (0 :: p.1, p.2)
  | LUnit.leaf w :: rest =>
      let size :=
        match o with
        | Orient.horizontal => subw_size_width w ((width - used).fdiv units)
        | Orient.vertical => subw_size_height w ((height - used).fdiv units)
      let p := immPass o height width (used + size) (units - 1) rest
      (size :: p.1, p.2)

/-- The final loop of the allocator (screen.py lines 345-352): each
immediate is placed at the cumulative offset of all earlier siblings,
horizontally as (top, left + offset, height, its size) and vertically as
(top + offset, left, its size, width); nested sublists were already placed
by the cmplx loop and their solutions are spliced back in. -/
def placePass (o : Orient) (top left height width : Int) :
    List LUnit → List Int → List (Option (List Placed)) → Int → List Placed
  | [], _, _, _ => []
  | LUnit.leaf w :: rest, sizes, rs, pre =>
      let s := sizes.headD 0
      let r :=
        match o with
        | Orient.horizontal => Region.mk top (left + pre) height s
        | Orient.vertical => Region.mk (top + pre) left s width
      Placed.leaf w r :: placePass o top left height width rest sizes.tail rs.tail (pre + s)
  | LUnit.group _ :: rest, sizes, rs, pre =>
      let s := sizes.headD 0
      Placed.group ((rs.headD Option.none).getD []) ::
        placePass o top left height width rest sizes.tail rs.tail (pre + s)

mutual

/-- The recursive allocator Screen.subw (screen.py lines 273-353):
allocate the immediates, then solve nested sublists recursively with the
opposite orientation charging the measured layout size, then place the
immediates at their cumulative offsets. -/
def subw (l : List LUnit) (top left height width : Int) (o : Orient) :
    List Placed :=
  let p := immPass o height width 0 (intLen l) l
  let c := cmplxPass o top left height width l p.1 0 p.2 (countGroups l)
  placePass o top left height width l c.2.1 c.1 0
termination_by (sizeOf l, 1)

/-- The cmplx loop of the allocator (screen.py lines 319-340): each nested
sublist is offered remaining extent over remaining sublist count, solved
recursively with the opposite orientation, and charged its measured layout
size; the running offset accumulates the final sizes of all earlier
siblings. Returns the per-child solved sublists (none at window
positions), the final sizes list, and the final used. -/
def cmplxPass (o : Orient) (top left height width : Int) :
    List LUnit → List Int → Int → Int → Int →
      List (Option (List Placed)) × List Int × Int
  | [], _, _, used, _ => ([], [], used)
  | LUnit.leaf _ :: rest, sizes, pre, used, units =>
      let s := sizes.headD 0
      let c := cmplxPass o top left height width rest sizes.tail (pre + s) used units
      (Option.none :: c.1, s :: c.2.1, c.2.2)
  | LUnit.group g :: rest, sizes, pre, used, units =>
      let r :=
        match o with
        | Orient.horizontal =>
            subw g top (left + pre) height ((width - used).fdiv units) Orient.vertical
        | Orient.vertical =>
            subw g (top + pre) left ((height - used).fdiv units) width Orient.horizontal
      let s :=
        match o with
        | Orient.horizontal => layoutSize Dim.width r
        | Orient.vertical => layoutSize Dim.height r
      let c := cmplxPass o top left height width rest sizes.tail (pre + s) (used + s) (units - 1)
      (Option.some r :: c.1, s :: c.2.1, c.2.2)
termination_by l sizes pre used units => (sizeOf l, 0)

end

/-- The final sizes list of an allocator invocation: the sizes array after
both allocation loops. -/
def subwSizes (l : List LUnit) (top left height width : Int) (o : Orient) :
    List Int :=
  let p := immPass o height width 0 (intLen l) l
  (cmplxPass o top left height width l p.1 0 p.2 (countGroups l)).2.1

/-- The regions of all windows in a placement, in declared order. -/
def leafRegions : List Placed → List Region
  | [] => []
  | Placed.leaf _ r :: rest => r :: leafRegions rest
  | Placed.group ps :: rest => leafRegions ps ++ leafRegions rest

/-- The widths of all windows in a placement, in declared order. -/
def leafWidths (ps : List Placed) : List Int := (leafRegions ps).map Region.width

/-- The heights of all windows in a placement, in declared order. -/
def leafHeights (ps : List Placed) : List Int := (leafRegions ps).map Region.height

/-- The window.align configuration values (spec section 6). -/
inductive Align where
  | top
  | bottom
  | left
  | right
  | topleft
  | topright
  | bottomleft
  | bottomright
  | neutral
deriving DecidableEq

/-- The Python substring test checking top in align, evaluated on each of
the nine align strings: only top, topleft and topright contain top (in
particular no bottom variant does, since none of them contains the letter
sequence t, o, p). -/
def alignHasTop : Align → Bool
  | Align.top | Align.topleft | Align.topright => true
  | _ => false

/-- The Python substring test checking bottom in align: only bottom,
bottomleft and bottomright contain bottom. -/
def alignHasBottom : Align → Bool
  | Align.bottom | Align.bottomleft | Align.bottomright => true
  | _ => false

/-- The Python call align.startswith on the string bottom. -/
def alignStartsBottom : Align → Bool
  | Align.bottom | Align.bottomleft | Align.bottomright => true
  | _ => false

/-- The Python call align.endswith on the string right. -/
def alignEndsRight : Align → Bool
  | Align.right | Align.topright | Align.bottomright => true
  | _ => false

/-- The window.border configuration values. -/
inductive BorderMode where
  | smart
  | full
  | none
deriving DecidableEq

/-- The four border flags of a window, in the tuple order the border
callback of the window setup helper returns: top, left, bottom, right. -/
structure BorderFlags where
  top : Bool
  left : Bool
  bottom : Bool
  right : Bool
deriving DecidableEq

/-- The border computation of the window setup helper of Screen (screen.py
lines 227-248). In smart mode an edge gets a border exactly when it does
not coincide with the screen boundary, where bottom is top + height - 1
and right is left + width - 1; for a floating window an align containing
top then forces the bottom border true and an align containing bottom
forces the top border true. Full mode sets all four flags, none mode
clears them. -/
def subw_init_border (mode : BorderMode) (isFloat : Bool) (align : Align)
    (top left height width screenH screenW : Int) : BorderFlags :=
  match mode with
  | BorderMode.full => BorderFlags.mk true true true true
  | BorderMode.none => BorderFlags.mk false false false false
  | BorderMode.smart =>
      let bottom := top + (height - 1)
      let right := left + (width - 1)
      let tb := top != 0
      let bb := bottom != screenH - 1
      let lb := left != 0
      let rb := right != screenW - 1
      if isFloat then
        let bb := if alignHasTop align then true else bb
        let tb := if alignHasBottom align then true else tb
        BorderFlags.mk tb lb bb rb
      else
        BorderFlags.mk tb lb bb rb

/-- The float placement loop of Screen.subwindows (screen.py lines
441-454): height and width are resolved by the size helpers against the
full screen extents; top is 0 unless align starts with bottom, in which
case it is screen height minus height, and left is 0 unless align ends
with right, in which case it is screen width minus width. -/
def placeFloat (w : Win) (align : Align) (screenH screenW : Int) : Region :=
  let height := subw_size_height w screenH
  let width := subw_size_width w screenW
  let top := if alignStartsBottom align then screenH - height else 0
  let left := if alignEndsRight align then screenW - width else 0
  Region.mk top left height width

/-- The window bookkeeping of Screen that the focus logic reads: the tiled
windows, the floating windows, and the currently focused window. Windows
are identified by their registration number. -/
structure FocusState where
  tiles : List Nat
  floats : List Nat
  focused : Option Nat
deriving DecidableEq

/-- Python list indexing with negative index support, defined for indices
in the valid range and returning none outside it. -/
def pyGet (xs : List Nat) (i : Int) : Option Nat :=
  if 0 ≤ i then xs.get? i.toNat else xs.get? (intLen xs + i).toNat

/-- The focus helper of Screen (screen.py lines 584-593): the focus order
is tiles plus floats reversed; an index strictly between minus the length
and the length selects that element Python style, anything else leaves the
focused window unchanged (the failure is only written to the debug log,
nothing is raised). -/
def focusCmd (s : FocusState) (idx : Int) : FocusState :=
  let order := (s.tiles ++ s.floats).reverse
  let l := intLen order
  if -1 * l < idx ∧ idx < l then
    { s with focused := pyGet order idx }
  else
    s

/-- The command dispatch of Screen (screen.py lines 617-619): the focused
window receives the command exactly when the screen level handler did not
handle it and a focused window exists. Returns the window that receives
the command, if any. -/
def dispatchCommand (screenHandled : Bool) (focused : Option Nat) :
    Option Nat :=
  if !screenHandled ∧ focused.isSome then focused else Option.none

/-- The key dispatch of Screen (screen.py lines 621-627): the screen level
handler result is returned if truthy, otherwise the focused window is
consulted when it exists, otherwise the dispatch returns none without
error. The handlers are parameters, as they live outside this module. -/
def dispatchKey (screenR : Option Nat) (winR : Nat → Option Nat)
    (focused : Option Nat) : Option Nat :=
  match screenR with
  | Option.some r => Option.some r
  | Option.none =>
      match focused with
      | Option.some w => winR w
      | Option.none => Option.none

/-- A raw key fed to the input thread: an ordinary character or the key
that finishes an edit. -/
inductive Key where
  | ch : Char → Key
  | done : Key
deriving DecidableEq

/-- Modelled from the spec: the addkey method of the InputBox edit buffer
(module input, which is not under src). Section 4.4 of the spec: a
character key is appended to the buffer and more keys are requested
(return code 1); the finishing key completes the edit with the buffer as
the final content, possibly empty (return code 0). -/
def addkey (buf : String) (k : Key) : Int × String :=
  match k with
  | Key.ch c => (1, buf.push c)
  | Key.done => (0, buf)

/-- The state of the screen input machinery crossing the input thread: the
sub edit flag, the edit buffer content, the input done event, the needs
redraw variable, and the user queue of keys handed to the main thread. -/
structure PumpState where
  subEdit : Bool
  buffer : String
  inputDone : Bool
  needsRedraw : Bool
  userQueue : List Key
deriving DecidableEq

/-- The key handling body of Screen.input thread (screen.py lines
644-659): with the sub edit flag set the key is fed to the edit buffer,
and a zero return code ends the edit, sets the input done event and marks
needs redraw; otherwise the key is put on the user queue. -/
def feedKey (s : PumpState) (k : Key) : PumpState :=
  if s.subEdit then
    let r := addkey s.buffer k
    if r.1 = 0 then
      { s with buffer := r.2, subEdit := false, inputDone := true,
               needsRedraw := true }
    else
      { s with buffer := r.2 }
  else
    { s with userQueue := s.userQueue ++ [k] }

/-- The start of an edit capture, Screen.input callback (screen.py lines
464-469) together with the edit method of the InputBox, the latter
modelled from the spec: the input done event is cleared, the buffer starts
empty, and the sub edit flag is raised. The caller then blocks until the
input done event is set and reads the buffer as the result. -/
def requestInput (s : PumpState) : PumpState :=
  { s with inputDone := false, buffer := "", subEdit := true }

/-- The scroll state of a TextBox (text.py): the stored offset variable,
the max offset computed on refresh, and the window height used by the page
commands. -/
structure TBState where
  offset : Int
  maxOffset : Int
  height : Int
deriving DecidableEq

/-- The relative scroll helper of TextBox (text.py lines 174-181): add the
factor, clamp above by max offset, clamp below by 0. -/
def relscroll (s : TBState) (factor : Int) : TBState :=
  { s with offset := max (min (s.offset + factor) s.maxOffset) 0 }

/-- The offset bookkeeping of TextBox.refresh (text.py lines 38-53): the
new max offset is lines - 1 minus height - 1, floored at 0, and the stored
offset is clamped down to it; the pad height is recorded for the page
commands. -/
def refreshTB (s : TBState) (lines height : Int) : TBState :=
  let m := max ((lines - 1) - (height - 1)) 0
  { offset := min s.offset m, maxOffset := m, height := height }

/-- The scroll operations a TextBox undergoes: the four scroll commands
(text.py lines 158-172) and a refresh with freshly rendered content. -/
inductive TBOp where
  | scrollUp
  | scrollDown
  | pageUp
  | pageDown
  | refreshOp : Int → Int → TBOp
deriving DecidableEq

/-- Applying one operation to a TextBox scroll state: the scroll commands
call the relative scroll helper with factors -1, 1, -(height - 1) and
height - 1, and refresh recomputes max offset and re-clamps. -/
def tbStep (s : TBState) : TBOp → TBState
  | TBOp.scrollUp => relscroll s (-1)
  | TBOp.scrollDown => relscroll s 1
  | TBOp.pageUp => relscroll s (-1 * (s.height - 1))
  | TBOp.pageDown => relscroll s (s.height - 1)
  | TBOp.refreshOp lines height => refreshTB s lines height

/-- The initial TextBox scroll state: init sets max offset 0 (text.py line
23) and the offset variable starts at 0. -/
def tbInit : TBState := TBState.mk 0 0 0

/-- The extent of a bounds rectangle along the partition axis of an
orientation: height for a vertical stack, width for a horizontal one. -/
def axisExtent (o : Orient) (height width : Int) : Int :=
  match o with
  | Orient.horizontal => width
  | Orient.vertical => height

/-- The height allocation recurrence as the specification words it, for
the refinement comparison of claim C1: each sibling in declared order gets
the minimum of remaining extent over remaining unit count, its configured
maximum if set (an absent or zero configuration is unbounded, per the
truthiness convention of the config lookup) and its requested size, after
which the consumed space is subtracted and the unit count decremented. -/
def specAllocHeights (extent : Int) : List Win → Int → Int → List Int
  | [], _, _ => []
  | w :: rest, used, units =>
      let share := (extent - used).fdiv units
      let s := min (min share (cfgOr w.cfgH share)) (w.reqH share)
      s :: specAllocHeights extent rest (used + s) (units - 1)

/-- The width allocation recurrence as the specification words it, the
horizontal counterpart of the height recurrence. -/
def specAllocWidths (extent : Int) : List Win → Int → Int → List Int
  | [], _, _ => []
  | w :: rest, used, units =>
      let share := (extent - used).fdiv units
      let s := min (min share (cfgOr w.cfgW share)) (w.reqW share)
      s :: specAllocWidths extent rest (used + s) (units - 1)

/-- A well formed window: configured maximums and requested sizes are
sizes, that is non-negative (the requested size on any non-negative
offered extent). -/
def WfWin (v : Win) : Prop :=
  (∀ c, v.cfgH = Option.some c → 0 ≤ c) ∧
  (∀ c, v.cfgW = Option.some c → 0 ≤ c) ∧
  (∀ x, 0 ≤ x → 0 ≤ v.reqH x) ∧
  (∀ x, 0 ≤ x → 0 ≤ v.reqW x)

/-- A well formed layout tree: every window is well formed and every
nested sublist is nonempty (the no-empty-group contract of the spec,
section 4.1). -/
inductive WfUnit : LUnit → Prop where
  | leaf : ∀ v, WfWin v → WfUnit (LUnit.leaf v)
  | group : ∀ g, g ≠ [] → (∀ u ∈ g, WfUnit u) → WfUnit (LUnit.group g)

/-- A well shaped placement: every nested sublist is nonempty. -/
inductive WfPlaced : Placed → Prop where
  | leaf : ∀ v r, WfPlaced (Placed.leaf v r)
  | group : ∀ ps, ps ≠ [] → (∀ p ∈ ps, WfPlaced p) → WfPlaced (Placed.group ps)

/-- A window of unconstrained configured and requested size: no
configuration, and the requested size is the whole offered extent, as
TextBox.get_height and get_width return (text.py lines 189-193). -/
def exUnc : Win := Win.mk Option.none Option.none (fun x => x) (fun x => x)

/-- The claim C4 counterexample layout: a wrapped unconstrained window
next to an immediate unconstrained window, in a horizontal partition. -/
def exC4 : List LUnit := [LUnit.group [LUnit.leaf exUnc], LUnit.leaf exUnc]

/-- The float of the claim C2 scenario: configured maximums 10 and 20,
unconstrained request. -/
def exFloatW : Win :=
  Win.mk (Option.some 10) (Option.some 20) (fun x => x) (fun x => x)

/-- The final allocator loop with the pad creation failure modelled: the
window setup helper calls curses.newpad(height + 1, width) (screen.py line
253), and newpad raises curses.error unless both requested dimensions are
positive; nothing in Screen catches the error, so the first failing window
aborts the whole layout pass. Otherwise identical to the total placement
loop. -/
def placePassE (o : Orient) (top left height width : Int) :
    List LUnit → List Int → List (Option (List Placed)) → Int →
      Option (List Placed)
  | [], _, _, _ => Option.some []
  | LUnit.leaf v :: rest, sizes, rs, pre =>
      let s := sizes.headD 0
      let r :=
        match o with
        | Orient.horizontal => Region.mk top (left + pre) height s
        | Orient.vertical => Region.mk (top + pre) left s width
      if 0 < r.height + 1 ∧ 0 < r.width then
        match placePassE o top left height width rest sizes.tail rs.tail
            (pre + s) with
        | Option.none => Option.none
        | Option.some ps => Option.some (Placed.leaf v r :: ps)
      else Option.none
  | LUnit.group _ :: rest, sizes, rs, pre =>
      let s := sizes.headD 0
      match placePassE o top left height width rest sizes.tail rs.tail
          (pre + s) with
      | Option.none => Option.none
      | Option.some ps =>
          Option.some (Placed.group ((rs.headD Option.none).getD []) :: ps)

mutual

/-- The recursive allocator with the pad creation failure path: the same
arithmetic as the total allocator, but a window whose curses pad cannot be
created aborts the pass with curses.error, a failure that propagates out
of the recursion. -/
def subwE (l : List LUnit) (top left height width : Int) (o : Orient) :
    Option (List Placed) :=
  let p := immPass o height width 0 (intLen l) l
  match cmplxPassE o top left height width l p.1 0 p.2 (countGroups l) with
  | Option.none => Option.none
  | Option.some c => placePassE o top left height width l c.2.1 c.1 0
termination_by (sizeOf l, 1)

/-- The cmplx loop with the failure path: a failing recursive solution
aborts before any later sibling is processed, since pads of a nested
sublist are created inside the recursive call while the pads of this
level's own windows are only created by the final loop. -/
def cmplxPassE (o : Orient) (top left height width : Int) :
    List LUnit → List Int → Int → Int → Int →
      Option (List (Option (List Placed)) × List Int × Int)
  | [], _, _, used, _ => Option.some ([], [], used)
  | LUnit.leaf _ :: rest, sizes, pre, used, units =>
      let s := sizes.headD 0
      match cmplxPassE o top left height width rest sizes.tail (pre + s)
          used units with
      | Option.none => Option.none
      | Option.some c => Option.some (Option.none :: c.1, s :: c.2.1, c.2.2)
  | LUnit.group g :: rest, sizes, pre, used, units =>
      match o with
      | Orient.horizontal =>
          match subwE g top (left + pre) height ((width - used).fdiv units)
              Orient.vertical with
          | Option.none => Option.none
          | Option.some r =>
              let s := layoutSize Dim.width r
              match cmplxPassE o top left height width rest sizes.tail
                  (pre + s) (used + s) (units - 1) with
              | Option.none => Option.none
              | Option.some c =>
                  Option.some (Option.some r :: c.1, s :: c.2.1, c.2.2)
      | Orient.vertical =>
          match subwE g (top + pre) left ((height - used).fdiv units) width
              Orient.horizontal with
          | Option.none => Option.none
          | Option.some r =>
              let s := layoutSize Dim.height r
              match cmplxPassE o top left height width rest sizes.tail
                  (pre + s) (used + s) (units - 1) with
              | Option.none => Option.none
              | Option.some c =>
                  Option.some (Option.some r :: c.1, s :: c.2.1, c.2.2)
termination_by l sizes pre used units => (sizeOf l, 0)

end

/-- The final sizes list of a fallible allocator invocation, when the
cmplx loop completes. -/
def subwSizesE (l : List LUnit) (top left height width : Int)
    (o : Orient) : Option (List Int) :=
  let p := immPass o height width 0 (intLen l) l
  match cmplxPassE o top left height width l p.1 0 p.2 (countGroups l) with
  | Option.none => Option.none
  | Option.some c => Option.some c.2.1

lemma intLen_map (f : α → β) (l : List α) : intLen (l.map f) = intLen l := by
  simp [intLen]

lemma immPass_leaf_len (o : Orient) (h w : Int) :
    ∀ (l : List LUnit) (used units : Int),
      ((immPass o h w used units l).1).length = l.length := by
  intro l
  induction l with
  | nil => intro used units; simp [immPass]
  | cons u rest ih =>
      intro used units
      cases u with
      | leaf v => simp [immPass, ih]
      | group g => simp [immPass, ih]

lemma cmplxPass_leaves (o : Orient) (t lf h w : Int) :
    ∀ (ws : List Win) (sizes : List Int) (pre used units : Int),
      sizes.length = ws.length →
      (cmplxPass o t lf h w (ws.map LUnit.leaf) sizes pre used units).2.1 =
        sizes := by
  intro ws
  induction ws with
  | nil =>
      intro sizes pre used units hlen
      cases sizes with
      | nil => simp [cmplxPass]
      | cons a b => simp at hlen
  | cons v rest ih =>
      intro sizes pre used units hlen
      cases sizes with
      | nil => simp at hlen
      | cons a ss =>
          simp only [List.map_cons, cmplxPass, List.headD_cons, List.tail_cons]
          simp only [List.length_cons, Nat.succ.injEq] at hlen
          rw [ih ss _ _ _ hlen]

lemma immPass_leaves_vert (h w : Int) :
    ∀ (ws : List Win) (used units : Int),
      (immPass Orient.vertical h w used units (ws.map LUnit.leaf)).1 =
        specAllocHeights h ws used units := by
  intro ws
  induction ws with
  | nil => intro used units; simp [immPass, specAllocHeights]
  | cons v rest ih =>
      intro used units
      simp only [List.map_cons, immPass, specAllocHeights, subw_size_height]
      rw [ih]

lemma immPass_leaves_horiz (h w : Int) :
    ∀ (ws : List Win) (used units : Int),
      (immPass Orient.horizontal h w used units (ws.map LUnit.leaf)).1 =
        specAllocWidths w ws used units := by
  intro ws
  induction ws with
  | nil => intro used units; simp [immPass, specAllocWidths]
  | cons v rest ih =>
      intro used units
      simp only [List.map_cons, immPass, specAllocWidths, subw_size_width]
      rw [ih]

/-- C1: for a flat run of immediate siblings the allocator resolves, in
declared order, each size as the minimum of remaining extent over
remaining unit count, the configured maximum if set and the requested
size, subtracting the consumed space and decrementing the unit count after
each allocation; three unconstrained tiles stacked vertically in height 30
get sizes 10, 10, 10 at offsets 0, 10, 20. -/
theorem claim1_immediate_allocation :
    (∀ (ws : List Win) (t lf h w : Int),
        subwSizes (ws.map LUnit.leaf) t lf h w Orient.vertical =
          specAllocHeights h ws 0 (intLen ws)) ∧
    (∀ (ws : List Win) (t lf h w : Int),
        subwSizes (ws.map LUnit.leaf) t lf h w Orient.horizontal =
          specAllocWidths w ws 0 (intLen ws)) ∧
    subwSizes [LUnit.leaf exUnc, LUnit.leaf exUnc, LUnit.leaf exUnc]
        0 0 30 80 Orient.vertical = [10, 10, 10] ∧
    leafRegions (subw [LUnit.leaf exUnc, LUnit.leaf exUnc, LUnit.leaf exUnc]
        0 0 30 80 Orient.vertical) =
      [Region.mk 0 0 10 80, Region.mk 10 0 10 80, Region.mk 20 0 10 80] := by
  refine ⟨?_, ?_, ?_, ?_⟩
  · intro ws t lf h w
    unfold subwSizes
    rw [cmplxPass_leaves _ _ _ _ _ ws _ _ _ _
        (by rw [immPass_leaf_len, List.length_map])]
    rw [intLen_map, immPass_leaves_vert]
  · intro ws t lf h w
    unfold subwSizes
    rw [cmplxPass_leaves _ _ _ _ _ ws _ _ _ _
        (by rw [immPass_leaf_len, List.length_map])]
    rw [intLen_map, immPass_leaves_horiz]
  · simp [subwSizes, immPass, cmplxPass, subw_size_height, cfgOr, intLen,
      countGroups, isGroupU, exUnc]
  · simp [leafRegions, subwSizes, immPass, cmplxPass, subw, placePass,
      subw_size_height, cfgOr, intLen, countGroups, isGroupU, exUnc]

/-- C2: a float's height and width are resolved by the same size helpers
as tiles against the full screen extents, independently of alignment, and
its top left corner is 0 unless the alignment anchors it to the bottom or
the right edge, in which case the extent minus the resolved size is used;
a float aligned bottomright on an 80 by 24 screen with configured maximums
10 and 20 and unconstrained request gets top 14, left 60, height 10,
width 20. -/
theorem claim2_float_placement :
    (∀ (v : Win) (a : Align) (sh sw : Int),
        (placeFloat v a sh sw).height = subw_size_height v sh ∧
        (placeFloat v a sh sw).width = subw_size_width v sw) ∧
    (∀ (v : Win) (a : Align) (sh sw : Int),
        (placeFloat v a sh sw).top =
          (if alignStartsBottom a then sh - subw_size_height v sh else 0) ∧
        (placeFloat v a sh sw).left =
          (if alignEndsRight a then sw - subw_size_width v sw else 0)) ∧
    placeFloat exFloatW Align.bottomright 24 80 = Region.mk 14 60 10 20 := by
  refine ⟨fun v a sh sw => ⟨rfl, rfl⟩, fun v a sh sw => ⟨rfl, rfl⟩, ?_⟩
  decide

/-- C5: border mode full sets all four border flags and mode none clears
them; mode smart sets each edge flag exactly when the edge does not
coincide with the outer screen boundary, except that for a floating window
an alignment containing top forces the bottom flag true and an alignment
containing bottom forces the top flag true. -/
theorem claim5_border_flags :
    (∀ (f : Bool) (a : Align) (t l h w sh sw : Int),
        subw_init_border BorderMode.full f a t l h w sh sw =
          BorderFlags.mk true true true true) ∧
    (∀ (f : Bool) (a : Align) (t l h w sh sw : Int),
        subw_init_border BorderMode.none f a t l h w sh sw =
          BorderFlags.mk false false false false) ∧
    (∀ (a : Align) (t l h w sh sw : Int),
        ((subw_init_border BorderMode.smart false a t l h w sh sw).top ↔
            t ≠ 0) ∧
        ((subw_init_border BorderMode.smart false a t l h w sh sw).left ↔
            l ≠ 0) ∧
        ((subw_init_border BorderMode.smart false a t l h w sh sw).bottom ↔
            t + (h - 1) ≠ sh - 1) ∧
        ((subw_init_border BorderMode.smart false a t l h w sh sw).right ↔
            l + (w - 1) ≠ sw - 1)) ∧
    (∀ (a : Align) (t l h w sh sw : Int),
        ((subw_init_border BorderMode.smart true a t l h w sh sw).top ↔
            (t ≠ 0 ∨ alignHasBottom a = true)) ∧
        ((subw_init_border BorderMode.smart true a t l h w sh sw).left ↔
            l ≠ 0) ∧
        ((subw_init_border BorderMode.smart true a t l h w sh sw).bottom ↔
            (t + (h - 1) ≠ sh - 1 ∨ alignHasTop a = true)) ∧
        ((subw_init_border BorderMode.smart true a t l h w sh sw).right ↔
            l + (w - 1) ≠ sw - 1)) := by
  refine ⟨fun f a t l h w sh sw => rfl, fun f a t l h w sh sw => rfl,
    ?_, ?_⟩
  · intro a t l h w sh sw
    refine ⟨?_, ?_, ?_, ?_⟩ <;> simp [subw_init_border, bne_iff_ne]
  · intro a t l h w sh sw
    refine ⟨?_, ?_, ?_, ?_⟩ <;>
      cases ha : alignHasBottom a <;> cases hb : alignHasTop a <;>
        simp [subw_init_border, ha, hb, bne_iff_ne]

/-- C9: a command goes to the focused window exactly when the screen level
handler does not handle it and a focused window exists; a key is answered
by the screen level handler when its result is truthy, otherwise by the
focused window when one exists, otherwise the dispatch returns none
without error. -/
theorem claim9_dispatch :
    (∀ (handled : Bool) (fo : Option Nat) (wr : Nat),
        dispatchCommand handled fo = Option.some wr ↔
          handled = false ∧ fo = Option.some wr) ∧
    (∀ fo : Option Nat, dispatchCommand true fo = Option.none) ∧
    (∀ (r : Nat) (f : Nat → Option Nat) (fo : Option Nat),
        dispatchKey (Option.some r) f fo = Option.some r) ∧
    (∀ (f : Nat → Option Nat) (w : Nat),
        dispatchKey Option.none f (Option.some w) = f w) ∧
    (∀ f : Nat → Option Nat,
        dispatchKey Option.none f Option.none = Option.none) := by
  refine ⟨?_, ?_, fun r f fo => rfl, fun f w => rfl, fun f => rfl⟩
  · intro handled fo wr
    cases handled <;> cases fo <;> simp [dispatchCommand]
  · intro fo
    cases fo <;> simp [dispatchCommand]

lemma pyGet_isSome (xs : List Nat) (i : Int)
    (h1 : -1 * intLen xs < i) (h2 : i < intLen xs) :
    (pyGet xs i).isSome = true := by
  unfold pyGet intLen at *
  split
  · rename_i hi
    have hlt : i.toNat < xs.length := by omega
    cases hx : xs.get? i.toNat with
    | none => rw [List.get?_eq_none] at hx; omega
    | some v => simp [hx]
  · rename_i hi
    have hlt : ((xs.length : Int) + i).toNat < xs.length := by omega
    cases hx : xs.get? ((xs.length : Int) + i).toNat with
    | none => rw [List.get?_eq_none] at hx; omega
    | some v => simp [hx]

/-- C6: a focus index strictly between minus the window count and the
window count resolves against the reversed concatenation of tiles and
floats with Python style negative indexing and always hits a window; any
other index leaves the whole state, in particular the focused window,
unchanged (the failure is only logged). -/
theorem claim6_focus :
    (∀ (s : FocusState) (i : Int),
        -1 * intLen (s.tiles ++ s.floats) < i →
        i < intLen (s.tiles ++ s.floats) →
        (focusCmd s i).focused = pyGet ((s.tiles ++ s.floats).reverse) i ∧
        (pyGet ((s.tiles ++ s.floats).reverse) i).isSome = true ∧
        (focusCmd s i).tiles = s.tiles ∧ (focusCmd s i).floats = s.floats) ∧
    (∀ (s : FocusState) (i : Int),
        ¬(-1 * intLen (s.tiles ++ s.floats) < i ∧
            i < intLen (s.tiles ++ s.floats)) →
        focusCmd s i = s) := by
  constructor
  · intro s i h1 h2
    have hrev : intLen ((s.tiles ++ s.floats).reverse) =
        intLen (s.tiles ++ s.floats) := by simp [intLen]; omega
    have hin : -1 * intLen ((s.tiles ++ s.floats).reverse) < i ∧
        i < intLen ((s.tiles ++ s.floats).reverse) := by rw [hrev]; exact ⟨h1, h2⟩
    refine ⟨?_, ?_, ?_, ?_⟩
    · simp only [focusCmd, if_pos hin]
    · exact pyGet_isSome _ _ hin.1 hin.2
    · simp only [focusCmd, if_pos hin]
    · simp only [focusCmd, if_pos hin]
  · intro s i h
    have hrev : intLen ((s.tiles ++ s.floats).reverse) =
        intLen (s.tiles ++ s.floats) := by simp [intLen]; omega
    have hout : ¬(-1 * intLen ((s.tiles ++ s.floats).reverse) < i ∧
        i < intLen ((s.tiles ++ s.floats).reverse)) := by rw [hrev]; exact h
    simp only [focusCmd, if_neg hout]

/-- Witness for C6 at a concrete state: tiles 1, 2 and float 3, focus
index -1 resolves to window 1, the first element of the concatenation. -/
theorem claim6_focus_witness :
    (-1 * intLen ((FocusState.mk [1, 2] [3] Option.none).tiles ++
        (FocusState.mk [1, 2] [3] Option.none).floats) < -1) ∧
    (-1 : Int) < intLen ((FocusState.mk [1, 2] [3] Option.none).tiles ++
        (FocusState.mk [1, 2] [3] Option.none).floats) ∧
    ((focusCmd (FocusState.mk [1, 2] [3] Option.none) (-1)).focused =
        pyGet (((FocusState.mk [1, 2] [3] Option.none).tiles ++
          (FocusState.mk [1, 2] [3] Option.none).floats).reverse) (-1) ∧
      (pyGet (((FocusState.mk [1, 2] [3] Option.none).tiles ++
          (FocusState.mk [1, 2] [3] Option.none).floats).reverse)
          (-1)).isSome = true ∧
      (focusCmd (FocusState.mk [1, 2] [3] Option.none) (-1)).tiles =
        (FocusState.mk [1, 2] [3] Option.none).tiles ∧
      (focusCmd (FocusState.mk [1, 2] [3] Option.none) (-1)).floats =
        (FocusState.mk [1, 2] [3] Option.none).floats) :=
  ⟨by decide, by decide,
    claim6_focus.1 (FocusState.mk [1, 2] [3] Option.none) (-1)
      (by decide) (by decide)⟩

/-- C8: when the edit buffer signals done, the input thread leaves the
edit state, sets the completion event with the buffer as the final content
(possibly empty), marks the display dirty and leaves the queue untouched;
outside an edit every key goes to the command queue; capturing with keys
h, i and the finishing key completes with the value hi. -/
theorem claim8_edit_capture :
    (∀ s : PumpState, s.subEdit = true →
        feedKey s Key.done =
          PumpState.mk false s.buffer true true s.userQueue) ∧
    (∀ (s : PumpState) (k : Key), s.subEdit = false →
        feedKey s k =
          PumpState.mk false s.buffer s.inputDone s.needsRedraw
            (s.userQueue ++ [k])) ∧
    (∀ s : PumpState,
        List.foldl feedKey (requestInput s) [Key.ch 'h', Key.ch 'i', Key.done] =
          PumpState.mk false "hi" true true s.userQueue) := by
  refine ⟨?_, ?_, ?_⟩
  · intro s hs
    simp [feedKey, addkey, hs]
  · intro s k hs
    cases s
    simp only at hs
    simp [feedKey, hs]
  · intro s
    cases s
    simp [feedKey, addkey, requestInput, List.foldl]
    decide

/-- Witness for C8: a concrete edit state with buffer ab receives the
finishing key and completes with content ab. -/
theorem claim8_edit_capture_witness :
    (PumpState.mk true "ab" false false []).subEdit = true ∧
    feedKey (PumpState.mk true "ab" false false []) Key.done =
      PumpState.mk false (PumpState.mk true "ab" false false []).buffer
        true true (PumpState.mk true "ab" false false []).userQueue :=
  ⟨rfl, claim8_edit_capture.1 (PumpState.mk true "ab" false false []) rfl⟩

lemma tbStep_inv (s : TBState) (op : TBOp)
    (h1 : 0 ≤ s.maxOffset) (h2 : 0 ≤ s.offset) (h3 : s.offset ≤ s.maxOffset) :
    0 ≤ (tbStep s op).maxOffset ∧ 0 ≤ (tbStep s op).offset ∧
      (tbStep s op).offset ≤ (tbStep s op).maxOffset := by
  cases op <;> simp [tbStep, relscroll, refreshTB] <;> omega

lemma tbRun_inv :
    ∀ (ops : List TBOp) (s : TBState),
      0 ≤ s.maxOffset → 0 ≤ s.offset → s.offset ≤ s.maxOffset →
      0 ≤ (List.foldl tbStep s ops).maxOffset ∧
      0 ≤ (List.foldl tbStep s ops).offset ∧
      (List.foldl tbStep s ops).offset ≤ (List.foldl tbStep s ops).maxOffset := by
  intro ops
  induction ops with
  | nil => intro s h1 h2 h3; exact ⟨h1, h2, h3⟩
  | cons op rest ih =>
      intro s h1 h2 h3
      have h := tbStep_inv s op h1 h2 h3
      exact ih (tbStep s op) h.1 h.2.1 h.2.2

/-- C10: along any sequence of scroll commands and refreshes from the
initial TextBox state, the stored offset stays between 0 and the current
max offset; a relative scroll clamps at both boundaries, and a refresh
recomputes the max offset and re-clamps a larger stored offset down to
it. -/
theorem claim10_scroll_clamp :
    (∀ ops : List TBOp,
        0 ≤ (List.foldl tbStep tbInit ops).offset ∧
        (List.foldl tbStep tbInit ops).offset ≤
          (List.foldl tbStep tbInit ops).maxOffset) ∧
    (∀ (s : TBState) (lines height : Int),
        (refreshTB s lines height).maxOffset =
          max ((lines - 1) - (height - 1)) 0 ∧
        (refreshTB s lines height).offset =
          min s.offset (max ((lines - 1) - (height - 1)) 0)) ∧
    (∀ (s : TBState) (factor : Int),
        (relscroll s factor).offset =
          max (min (s.offset + factor) s.maxOffset) 0) := by
  refine ⟨?_, fun s lines height => ⟨rfl, rfl⟩, fun s factor => rfl⟩
  intro ops
  have h := tbRun_inv ops tbInit (le_refl 0) (le_refl 0) (le_refl 0)
  exact ⟨h.2.1, h.2.2⟩

lemma fdiv_le_self_of (a b : Int) (ha : 0 ≤ a) (hb : 0 ≤ b) :
    a.fdiv b ≤ a := by
  rw [Int.fdiv_eq_ediv a hb]
  exact Int.ediv_le_self b ha

lemma subw_size_height_le (v : Win) (h : Int) : subw_size_height v h ≤ h :=
  le_trans (min_le_left _ _) (min_le_left _ _)

lemma subw_size_width_le (v : Win) (w : Int) : subw_size_width v w ≤ w :=
  le_trans (min_le_left _ _) (min_le_left _ _)

lemma subw_size_height_nonneg (v : Win) (h : Int) (hv : WfWin v)
    (hh : 0 ≤ h) : 0 ≤ subw_size_height v h := by
  refine le_min (le_min hh ?_) (hv.2.2.1 h hh)
  unfold cfgOr
  cases hc : v.cfgH with
  | none => exact hh
  | some c =>
      by_cases h0 : c = 0
      · simp only [h0, if_pos rfl]; exact hh
      · simp only [if_neg h0]; exact hv.1 c hc

lemma subw_size_width_nonneg (v : Win) (w : Int) (hv : WfWin v)
    (hw : 0 ≤ w) : 0 ≤ subw_size_width v w := by
  refine le_min (le_min hw ?_) (hv.2.2.2 w hw)
  unfold cfgOr
  cases hc : v.cfgW with
  | none => exact hw
  | some c =>
      by_cases h0 : c = 0
      · simp only [h0, if_pos rfl]; exact hw
      · simp only [if_neg h0]; exact hv.2.1 c hc

lemma maxList_cons (x : Int) (xs : List Int) (hxs : xs ≠ []) :
    maxList (x :: xs) = max x (maxList xs) := by
  cases xs with
  | nil => exact absurd rfl hxs
  | cons y ys => rfl

lemma le_maxList (xs : List Int) (a : Int) (ha : a ∈ xs) : a ≤ maxList xs := by
  induction xs with
  | nil => cases ha
  | cons x ys ih =>
      cases ys with
      | nil =>
          rcases List.mem_cons.mp ha with h | h
          · subst h; exact le_refl _
          · cases h
      | cons y zs =>
          rcases List.mem_cons.mp ha with h | h
          · subst h; exact le_max_left _ _
          · exact le_trans (ih h) (le_max_right _ _)

lemma maxList_le (xs : List Int) (b : Int) (hne : xs ≠ [])
    (h : ∀ x ∈ xs, x ≤ b) : maxList xs ≤ b := by
  induction xs with
  | nil => exact absurd rfl hne
  | cons x ys ih =>
      cases ys with
      | nil => exact h x (List.mem_cons_self _ _)
      | cons y zs =>
          rw [maxList_cons x _ (by simp)]
          refine max_le (h x (List.mem_cons_self _ _)) ?_
          exact ih (by simp) (fun z hz => h z (List.mem_cons_of_mem _ hz))

lemma maxList_bounds (xs : List Int) (a b : Int) (hne : xs ≠ [])
    (h : ∀ x ∈ xs, a ≤ x ∧ x ≤ b) :
    a ≤ maxList xs ∧ maxList xs ≤ b := by
  constructor
  · cases xs with
    | nil => exact absurd rfl hne
    | cons x ys =>
        exact le_trans (h x (List.mem_cons_self _ _)).1
          (le_maxList _ x (List.mem_cons_self _ _))
  · exact maxList_le xs b hne (fun x hx => (h x hx).2)

lemma maxList_append (xs ys : List Int) (hx : xs ≠ []) (hy : ys ≠ []) :
    maxList (xs ++ ys) = max (maxList xs) (maxList ys) := by
  induction xs with
  | nil => exact absurd rfl hx
  | cons x xs ih =>
      cases xs with
      | nil => simp [maxList_cons x ys hy, maxList]
      | cons x2 xs2 =>
          rw [List.cons_append, maxList_cons x _ (by simp),
            ih (by simp), maxList_cons x (x2 :: xs2) (by simp), max_assoc]

lemma maxList_map_sub_one (xs : List Int) (hne : xs ≠ []) :
    maxList (xs.map (fun x => x - 1)) = maxList xs - 1 := by
  induction xs with
  | nil => exact absurd rfl hne
  | cons x xs ih =>
      cases xs with
      | nil => rfl
      | cons y ys =>
          rw [List.map_cons, maxList_cons _ _ (by simp),
            maxList_cons x (y :: ys) (by simp), ih (by simp)]
          rcases le_total x (maxList (y :: ys)) with h | h <;> omega

lemma leafRegions_append (ps qs : List Placed) :
    leafRegions (ps ++ qs) = leafRegions ps ++ leafRegions qs := by
  induction ps with
  | nil => simp [leafRegions]
  | cons p rest ih =>
      cases p with
      | leaf v r => simp [leafRegions, ih]
      | group g => simp [leafRegions, ih]

lemma layoutMeasures_length (d : Dim) :
    ∀ ps : List Placed, (layoutMeasures d ps).length = ps.length := by
  intro ps
  induction ps with
  | nil => simp [layoutMeasures]
  | cons p rest ih =>
      cases p with
      | leaf v r => simp [layoutMeasures, ih]
      | group g => simp [layoutMeasures, ih]

lemma sizeOf_le_of_mem_placed {p : Placed} {ps : List Placed} (h : p ∈ ps) :
    sizeOf p < sizeOf ps :=
  List.sizeOf_lt_of_mem h

lemma leafRegions_ne_nil :
    ∀ (n : Nat) (ps : List Placed), sizeOf ps ≤ n → ps ≠ [] →
      (∀ p ∈ ps, WfPlaced p) → leafRegions ps ≠ [] := by
  intro n
  induction n with
  | zero =>
      intro ps hsz hne hwf
      cases ps with
      | nil => exact absurd rfl hne
      | cons p rest => simp at hsz
  | succ n ih =>
      intro ps hsz hne hwf
      cases ps with
      | nil => exact absurd rfl hne
      | cons p rest =>
          cases p with
          | leaf v r => simp [leafRegions]
          | group g =>
              have hw := hwf _ (List.mem_cons_self _ _)
              cases hw with
              | group _ hg hgw =>
                  have hsg : sizeOf g ≤ n := by
                    simp at hsz; omega
                  have hgne := ih g hsg hg hgw
                  simp only [leafRegions]
                  intro habs
                  rcases List.append_eq_nil.mp habs with ⟨h1, h2⟩
                  exact hgne h1

lemma layoutSize_flatten (d : Dim) :
    ∀ (n : Nat) (ps : List Placed), sizeOf ps ≤ n → ps ≠ [] →
      (∀ p ∈ ps, WfPlaced p) →
      layoutSize d ps =
        maxList ((leafRegions ps).map (fun r => padDim d r - 1)) := by
  intro n
  induction n with
  | zero =>
      intro ps hsz hne hwf
      cases ps with
      | nil => exact absurd rfl hne
      | cons p rest => simp at hsz
  | succ n ih =>
      intro ps hsz hne hwf
      cases ps with
      | nil => exact absurd rfl hne
      | cons p rest =>
          have hwrest : ∀ q ∈ rest, WfPlaced q :=
            fun q hq => hwf q (List.mem_cons_of_mem _ hq)
          cases p with
          | leaf v r =>
              cases rest with
              | nil => simp [layoutSize, layoutMeasures, leafRegions, maxList]
              | cons q qs =>
                  have hrsz : sizeOf (q :: qs) ≤ n := by simp at hsz ⊢; omega
                  have hrne : (q :: qs) ≠ [] := by simp
                  have hmne : layoutMeasures d (q :: qs) ≠ [] := by
                    intro habs
                    have := layoutMeasures_length d (q :: qs)
                    rw [habs] at this
                    simp at this
                  have hlne : leafRegions (q :: qs) ≠ [] :=
                    leafRegions_ne_nil n (q :: qs) hrsz hrne hwrest
                  have hmapne :
                      (leafRegions (q :: qs)).map (fun r => padDim d r - 1) ≠ [] := by
                    simpa using hlne
                  simp only [layoutSize, layoutMeasures, leafRegions, List.map_cons]
                  rw [maxList_cons _ _ hmne, maxList_cons _ _ hmapne]
                  rw [show maxList (layoutMeasures d (q :: qs)) = layoutSize d (q :: qs) from rfl]
                  rw [ih (q :: qs) hrsz hrne hwrest]
          | group g =>
              have hw := hwf _ (List.mem_cons_self _ _)
              cases hw with
              | group _ hg hgw =>
                  have hsg : sizeOf g ≤ n := by simp at hsz; omega
                  have hgval : maxList (layoutMeasures d g) =
                      maxList ((leafRegions g).map (fun r => padDim d r - 1)) := by
                    have := ih g hsg hg hgw
                    simpa [layoutSize] using this
                  have hglne : leafRegions g ≠ [] :=
                    leafRegions_ne_nil n g hsg hg hgw
                  have hgmapne :
                      (leafRegions g).map (fun r => padDim d r - 1) ≠ [] := by
                    simpa using hglne
                  cases rest with
                  | nil =>
                      simp only [layoutSize, layoutMeasures, leafRegions,
                        List.append_nil, maxList]
                      exact hgval
                  | cons q qs =>
                      have hrsz : sizeOf (q :: qs) ≤ n := by simp at hsz ⊢; omega
                      have hrne : (q :: qs) ≠ [] := by simp
                      have hmne : layoutMeasures d (q :: qs) ≠ [] := by
                        intro habs
                        have := layoutMeasures_length d (q :: qs)
                        rw [habs] at this
                        simp at this
                      have hlne : leafRegions (q :: qs) ≠ [] :=
                        leafRegions_ne_nil n (q :: qs) hrsz hrne hwrest
                      have hmapne :
                          (leafRegions (q :: qs)).map (fun r => padDim d r - 1) ≠ [] := by
                        simpa using hlne
                      simp only [layoutSize, layoutMeasures, leafRegions]
                      rw [maxList_cons _ _ hmne, List.map_append,
                        maxList_append _ _ hgmapne hmapne, hgval]
                      rw [show maxList (layoutMeasures d (q :: qs)) = layoutSize d (q :: qs) from rfl]
                      rw [ih (q :: qs) hrsz hrne hwrest]

lemma place_shape_aux (o : Orient) (t lf h w : Int) :
    ∀ (l : List LUnit) (sizes : List Int) (pre used units pre2 : Int),
      (∀ g, LUnit.group g ∈ l →
        ∀ (t2 lf2 h2 w2 : Int) (o2 : Orient),
          (∀ p ∈ subw g t2 lf2 h2 w2 o2, WfPlaced p) ∧
          (subw g t2 lf2 h2 w2 o2).length = g.length) →
      (∀ u ∈ l, WfUnit u) →
      (∀ p ∈ placePass o t lf h w l
          (cmplxPass o t lf h w l sizes pre used units).2.1
          (cmplxPass o t lf h w l sizes pre used units).1 pre2, WfPlaced p) ∧
      (placePass o t lf h w l
          (cmplxPass o t lf h w l sizes pre used units).2.1
          (cmplxPass o t lf h w l sizes pre used units).1 pre2).length =
        l.length := by
  intro l
  induction l with
  | nil =>
      intro sizes pre used units pre2 hg hwf
      simp [cmplxPass, placePass]
  | cons u rest ih =>
      intro sizes pre used units pre2 hg hwf
      have hgrest : ∀ g, LUnit.group g ∈ rest →
          ∀ (t2 lf2 h2 w2 : Int) (o2 : Orient),
            (∀ p ∈ subw g t2 lf2 h2 w2 o2, WfPlaced p) ∧
            (subw g t2 lf2 h2 w2 o2).length = g.length :=
        fun g hgm => hg g (List.mem_cons_of_mem _ hgm)
      have hwrest : ∀ v ∈ rest, WfUnit v :=
        fun v hv => hwf v (List.mem_cons_of_mem _ hv)
      cases u with
      | leaf v =>
          simp only [cmplxPass, placePass, List.headD_cons, List.tail_cons]
          constructor
          · intro p hp
            rcases List.mem_cons.mp hp with h1 | h2
            · subst h1; exact WfPlaced.leaf _ _
            · exact (ih sizes.tail (pre + sizes.headD 0) used units
                (pre2 + sizes.headD 0) hgrest hwrest).1 p h2
          · simp only [List.length_cons]
            rw [(ih sizes.tail (pre + sizes.headD 0) used units
              (pre2 + sizes.headD 0) hgrest hwrest).2]
      | group g =>
          have hwg := hwf _ (List.mem_cons_self _ _)
          have hgprop := hg g (List.mem_cons_self _ _)
          cases hwg with
          | group _ hgne hgwf =>
              cases o with
              | horizontal =>
                  simp only [cmplxPass, placePass, List.headD_cons,
                    List.tail_cons, Option.getD_some]
                  constructor
                  · intro p hp
                    rcases List.mem_cons.mp hp with h1 | h2
                    · subst h1
                      refine WfPlaced.group _ ?_ ?_
                      · intro habs
                        have hlen := (hgprop t (lf + pre) h
                          ((w - used).fdiv units) Orient.vertical).2
                        rw [habs] at hlen
                        simp at hlen
                        exact hgne (List.length_eq_zero.mp hlen.symm)
                      · exact (hgprop t (lf + pre) h
                          ((w - used).fdiv units) Orient.vertical).1
                    · exact (ih sizes.tail _ _ _ _ hgrest hwrest).1 p h2
                  · simp only [List.length_cons]
                    rw [(ih sizes.tail _ _ _ _ hgrest hwrest).2]
              | vertical =>
                  simp only [cmplxPass, placePass, List.headD_cons,
                    List.tail_cons, Option.getD_some]
                  constructor
                  · intro p hp
                    rcases List.mem_cons.mp hp with h1 | h2
                    · subst h1
                      refine WfPlaced.group _ ?_ ?_
                      · intro habs
                        have hlen := (hgprop (t + pre) lf
                          ((h - used).fdiv units) w Orient.horizontal).2
                        rw [habs] at hlen
                        simp at hlen
                        exact hgne (List.length_eq_zero.mp hlen.symm)
                      · exact (hgprop (t + pre) lf
                          ((h - used).fdiv units) w Orient.horizontal).1
                    · exact (ih sizes.tail _ _ _ _ hgrest hwrest).1 p h2
                  · simp only [List.length_cons]
                    rw [(ih sizes.tail _ _ _ _ hgrest hwrest).2]

lemma sizeOf_group_mem {g : List LUnit} {l : List LUnit}
    (h : LUnit.group g ∈ l) : sizeOf g < sizeOf l := by
  have := List.sizeOf_lt_of_mem h
  simp at this
  omega

lemma subw_shape :
    ∀ (n : Nat) (l : List LUnit), sizeOf l ≤ n →
      ∀ (t lf h w : Int) (o : Orient),
        (∀ u ∈ l, WfUnit u) →
        (∀ p ∈ subw l t lf h w o, WfPlaced p) ∧
        (subw l t lf h w o).length = l.length := by
  intro n
  induction n with
  | zero =>
      intro l hsz
      cases l with
      | nil => simp at hsz
      | cons u rest => simp at hsz
  | succ n ih =>
      intro l hsz t lf h w o hwf
      have hg : ∀ g, LUnit.group g ∈ l →
          ∀ (t2 lf2 h2 w2 : Int) (o2 : Orient),
            (∀ p ∈ subw g t2 lf2 h2 w2 o2, WfPlaced p) ∧
            (subw g t2 lf2 h2 w2 o2).length = g.length := by
        intro g hm t2 lf2 h2 w2 o2
        have hlt := sizeOf_group_mem hm
        have hwg : ∀ u ∈ g, WfUnit u := by
          have := hwf _ hm
          cases this with
          | group _ _ hx => exact hx
        exact ih g (by omega) t2 lf2 h2 w2 o2 hwg
      unfold subw
      exact place_shape_aux o t lf h w l _ 0 _ _ 0 hg hwf

lemma alloc_step_h (v : Win) (ext used units : Int) (hv : WfWin v)
    (h0 : 0 ≤ used) (h1 : used ≤ ext) (hu : 1 ≤ units) :
    0 ≤ subw_size_height v ((ext - used).fdiv units) ∧
    subw_size_height v ((ext - used).fdiv units) ≤ ext - used := by
  have hsh : 0 ≤ (ext - used).fdiv units :=
    Int.fdiv_nonneg (by omega) (by omega)
  exact ⟨subw_size_height_nonneg v _ hv hsh,
    le_trans (subw_size_height_le v _)
      (fdiv_le_self_of _ _ (by omega) (by omega))⟩

lemma alloc_step_w (v : Win) (ext used units : Int) (hv : WfWin v)
    (h0 : 0 ≤ used) (h1 : used ≤ ext) (hu : 1 ≤ units) :
    0 ≤ subw_size_width v ((ext - used).fdiv units) ∧
    subw_size_width v ((ext - used).fdiv units) ≤ ext - used := by
  have hsh : 0 ≤ (ext - used).fdiv units :=
    Int.fdiv_nonneg (by omega) (by omega)
  exact ⟨subw_size_width_nonneg v _ hv hsh,
    le_trans (subw_size_width_le v _)
      (fdiv_le_self_of _ _ (by omega) (by omega))⟩

lemma countImms_nonneg (l : List LUnit) :
    0 ≤ intLen (l.filter (fun u => !isGroupU u)) := by
  simp [intLen]

lemma countImms_le_len (l : List LUnit) :
    intLen (l.filter (fun u => !isGroupU u)) ≤ intLen l := by
  simp only [intLen]
  exact_mod_cast List.length_filter_le _ _

lemma immPass_bounds (o : Orient) (height width : Int)
    (hext : 0 ≤ axisExtent o height width) :
    ∀ (l : List LUnit) (used units : Int),
      (∀ u ∈ l, WfUnit u) →
      0 ≤ used → used ≤ axisExtent o height width →
      intLen (l.filter (fun u => !isGroupU u)) ≤ units →
      (∀ s ∈ (immPass o height width used units l).1,
          0 ≤ s ∧ s ≤ axisExtent o height width) ∧
      used ≤ (immPass o height width used units l).2 ∧
      (immPass o height width used units l).2 ≤
        axisExtent o height width := by
  intro l
  induction l with
  | nil =>
      intro used units hwf hu0 hue hcnt
      simp only [immPass]
      exact ⟨fun s hs => absurd hs (List.not_mem_nil s),
        le_refl used, hue⟩
  | cons u rest ih =>
      intro used units hwf hu0 hue hcnt
      have hwrest : ∀ v ∈ rest, WfUnit v :=
        fun v hv => hwf v (List.mem_cons_of_mem _ hv)
      cases u with
      | group g =>
          have hcnt2 : intLen (rest.filter (fun u => !isGroupU u)) ≤
              units := by
            simpa [List.filter_cons, isGroupU] using hcnt
          have hrec := ih used units hwrest hu0 hue hcnt2
          simp only [immPass]
          refine ⟨?_, hrec.2.1, hrec.2.2⟩
          intro s hs
          rcases List.mem_cons.mp hs with h1 | h2
          · subst h1; exact ⟨le_refl 0, hext⟩
          · exact hrec.1 s h2
      | leaf v =>
          have hwv : WfWin v := by
            have := hwf _ (List.mem_cons_self _ _)
            cases this with
            | leaf _ hx => exact hx
          have hcnt1 : intLen (rest.filter (fun u => !isGroupU u)) + 1 ≤
              units := by
            have : intLen ((LUnit.leaf v :: rest).filter
                (fun u => !isGroupU u)) =
                intLen (rest.filter (fun u => !isGroupU u)) + 1 := by
              simp [List.filter_cons, isGroupU, intLen]
            omega
          have hu1 : 1 ≤ units := by
            have := countImms_nonneg rest
            omega
          cases o with
          | vertical =>
              have hstep := alloc_step_h v height used units hwv hu0
                (by simpa [axisExtent] using hue) hu1
              simp only [immPass]
              have hused2 : 0 ≤ used + subw_size_height v
                  ((height - used).fdiv units) := by
                have := hstep.1
                omega
              have hue2 : used + subw_size_height v
                  ((height - used).fdiv units) ≤
                  axisExtent Orient.vertical height width := by
                have := hstep.2
                simp only [axisExtent]
                omega
              have hrec := ih _ (units - 1) hwrest hused2 hue2
                (by omega)
              refine ⟨?_, ?_, hrec.2.2⟩
              · intro s hs
                rcases List.mem_cons.mp hs with h1 | h2
                · subst h1
                  refine ⟨hstep.1, ?_⟩
                  simp only [axisExtent]
                  have := hstep.2
                  omega
                · exact hrec.1 s h2
              · have := hrec.2.1
                have := hstep.1
                omega
          | horizontal =>
              have hstep := alloc_step_w v width used units hwv hu0
                (by simpa [axisExtent] using hue) hu1
              simp only [immPass]
              have hused2 : 0 ≤ used + subw_size_width v
                  ((width - used).fdiv units) := by
                have := hstep.1
                omega
              have hue2 : used + subw_size_width v
                  ((width - used).fdiv units) ≤
                  axisExtent Orient.horizontal height width := by
                have := hstep.2
                simp only [axisExtent]
                omega
              have hrec := ih _ (units - 1) hwrest hused2 hue2
                (by omega)
              refine ⟨?_, ?_, hrec.2.2⟩
              · intro s hs
                rcases List.mem_cons.mp hs with h1 | h2
                · subst h1
                  refine ⟨hstep.1, ?_⟩
                  simp only [axisExtent]
                  have := hstep.2
                  omega
                · exact hrec.1 s h2
              · have := hrec.2.1
                have := hstep.1
                omega

lemma immPass_sum (o : Orient) (h w : Int) :
    ∀ (l : List LUnit) (used units : Int),
      ((immPass o h w used units l).1).sum =
        (immPass o h w used units l).2 - used := by
  intro l
  induction l with
  | nil => intro used units; simp [immPass]
  | cons u rest ih =>
      intro used units
      cases u with
      | group g =>
          simp only [immPass, List.sum_cons]
          rw [ih]
          omega
      | leaf v =>
          simp only [immPass, List.sum_cons]
          rw [ih]
          omega

lemma headD_bound (sizes : List Int) (h : Int)
    (hall : ∀ s ∈ sizes, 0 ≤ s ∧ s ≤ h) (hh : 0 ≤ h) :
    0 ≤ sizes.headD 0 ∧ sizes.headD 0 ≤ h := by
  cases sizes with
  | nil => exact ⟨le_refl 0, hh⟩
  | cons a ss => exact hall a (List.mem_cons_self _ _)

lemma tail_bound (sizes : List Int) (h : Int)
    (hall : ∀ s ∈ sizes, 0 ≤ s ∧ s ≤ h) :
    ∀ s ∈ sizes.tail, 0 ≤ s ∧ s ≤ h :=
  fun s hs => hall s (List.mem_of_mem_tail hs)

lemma heights_aux_horiz (t lf h w : Int) (hh : 0 ≤ h) :
    ∀ (l : List LUnit) (sizes : List Int) (pre used units pre2 : Int),
      (∀ g, LUnit.group g ∈ l →
        ∀ (t2 lf2 h2 w2 : Int) (o2 : Orient), 0 ≤ h2 →
          (∀ u ∈ g, WfUnit u) →
          ∀ r ∈ leafRegions (subw g t2 lf2 h2 w2 o2),
            0 ≤ r.height ∧ r.height ≤ h2) →
      (∀ u ∈ l, WfUnit u) →
      ∀ r ∈ leafRegions (placePass Orient.horizontal t lf h w l
          (cmplxPass Orient.horizontal t lf h w l sizes pre used units).2.1
          (cmplxPass Orient.horizontal t lf h w l sizes pre used units).1
          pre2),
        0 ≤ r.height ∧ r.height ≤ h := by
  intro l
  induction l with
  | nil =>
      intro sizes pre used units pre2 hg hwf
      simp [cmplxPass, placePass, leafRegions]
  | cons u rest ih =>
      intro sizes pre used units pre2 hg hwf
      have hgrest : ∀ g, LUnit.group g ∈ rest →
          ∀ (t2 lf2 h2 w2 : Int) (o2 : Orient), 0 ≤ h2 →
            (∀ u ∈ g, WfUnit u) →
            ∀ r ∈ leafRegions (subw g t2 lf2 h2 w2 o2),
              0 ≤ r.height ∧ r.height ≤ h2 :=
        fun g hgm => hg g (List.mem_cons_of_mem _ hgm)
      have hwrest : ∀ v ∈ rest, WfUnit v :=
        fun v hv => hwf v (List.mem_cons_of_mem _ hv)
      cases u with
      | leaf v =>
          simp only [cmplxPass, placePass, List.headD_cons, List.tail_cons,
            leafRegions]
          intro r hr
          rcases List.mem_cons.mp hr with h1 | h2
          · subst h1; exact ⟨hh, le_refl h⟩
          · exact ih sizes.tail (pre + sizes.headD 0) used units
              (pre2 + sizes.headD 0) hgrest hwrest r h2
      | group g =>
          have hwg := hwf _ (List.mem_cons_self _ _)
          cases hwg with
          | group _ hgne hgwf =>
              simp only [cmplxPass, placePass, List.headD_cons,
                List.tail_cons, Option.getD_some, leafRegions]
              intro r hr
              rcases List.mem_append.mp hr with h1 | h2
              · exact hg g (List.mem_cons_self _ _) t (lf + pre) h
                  ((w - used).fdiv units) Orient.vertical hh hgwf r h1
              · exact ih sizes.tail _ _ _ _ hgrest hwrest r h2

lemma heights_aux_vert (t lf h w : Int) (hh : 0 ≤ h) :
    ∀ (l : List LUnit) (sizes : List Int) (pre used units pre2 : Int),
      (∀ g, LUnit.group g ∈ l →
        ∀ (t2 lf2 h2 w2 : Int) (o2 : Orient), 0 ≤ h2 →
          (∀ u ∈ g, WfUnit u) →
          ∀ r ∈ leafRegions (subw g t2 lf2 h2 w2 o2),
            0 ≤ r.height ∧ r.height ≤ h2) →
      (∀ u ∈ l, WfUnit u) →
      (∀ s ∈ sizes, 0 ≤ s ∧ s ≤ h) →
      0 ≤ used → used ≤ h → countGroups l ≤ units →
      ∀ r ∈ leafRegions (placePass Orient.vertical t lf h w l
          (cmplxPass Orient.vertical t lf h w l sizes pre used units).2.1
          (cmplxPass Orient.vertical t lf h w l sizes pre used units).1
          pre2),
        0 ≤ r.height ∧ r.height ≤ h := by
  intro l
  induction l with
  | nil =>
      intro sizes pre used units pre2 hg hwf hsz hu0 hue hcnt
      simp [cmplxPass, placePass, leafRegions]
  | cons u rest ih =>
      intro sizes pre used units pre2 hg hwf hsz hu0 hue hcnt
      have hgrest : ∀ g, LUnit.group g ∈ rest →
          ∀ (t2 lf2 h2 w2 : Int) (o2 : Orient), 0 ≤ h2 →
            (∀ u ∈ g, WfUnit u) →
            ∀ r ∈ leafRegions (subw g t2 lf2 h2 w2 o2),
              0 ≤ r.height ∧ r.height ≤ h2 :=
        fun g hgm => hg g (List.mem_cons_of_mem _ hgm)
      have hwrest : ∀ v ∈ rest, WfUnit v :=
        fun v hv => hwf v (List.mem_cons_of_mem _ hv)
      cases u with
      | leaf v =>
          have hcg : countGroups rest ≤ units := by
            simpa [countGroups, List.filter_cons, isGroupU] using hcnt
          simp only [cmplxPass, placePass, List.headD_cons, List.tail_cons,
            leafRegions]
          intro r hr
          rcases List.mem_cons.mp hr with h1 | h2
          · subst h1
            exact headD_bound sizes h hsz hh
          · exact ih sizes.tail (pre + sizes.headD 0) used units
              (pre2 + sizes.headD 0) hgrest hwrest
              (tail_bound sizes h hsz) hu0 hue hcg r h2
      | group g =>
          have hwg := hwf _ (List.mem_cons_self _ _)
          cases hwg with
          | group _ hgne hgwf =>
              have hcg1 : countGroups rest + 1 ≤ units := by
                have : countGroups (LUnit.group g :: rest) =
                    countGroups rest + 1 := by
                  simp [countGroups, List.filter_cons, isGroupU, intLen]
                omega
              have hcgn : 0 ≤ countGroups rest := by
                simp [countGroups, intLen]
              have hu1 : 1 ≤ units := by omega
              have havn : 0 ≤ (h - used).fdiv units :=
                Int.fdiv_nonneg (by omega) (by omega)
              have havle : (h - used).fdiv units ≤ h - used :=
                fdiv_le_self_of _ _ (by omega) (by omega)
              have hshape := subw_shape (sizeOf g) g (le_refl _)
                (t + pre) lf ((h - used).fdiv units) w Orient.horizontal hgwf
              have hrne : subw g (t + pre) lf ((h - used).fdiv units) w
                  Orient.horizontal ≠ [] := by
                intro habs
                have := hshape.2
                rw [habs] at this
                simp at this
                exact hgne (List.length_eq_zero.mp this.symm)
              have hlne : leafRegions (subw g (t + pre) lf
                  ((h - used).fdiv units) w Orient.horizontal) ≠ [] :=
                leafRegions_ne_nil _ _ (le_refl _) hrne hshape.1
              have hleaf : ∀ r ∈ leafRegions (subw g (t + pre) lf
                  ((h - used).fdiv units) w Orient.horizontal),
                  0 ≤ r.height ∧ r.height ≤ (h - used).fdiv units :=
                hg g (List.mem_cons_self _ _) (t + pre) lf
                  ((h - used).fdiv units) w Orient.horizontal havn hgwf
              have hflat := layoutSize_flatten Dim.height _ _ (le_refl _)
                hrne hshape.1
              have hmapeq : ((leafRegions (subw g (t + pre) lf
                  ((h - used).fdiv units) w Orient.horizontal)).map
                    (fun r => padDim Dim.height r - 1)) =
                  ((leafRegions (subw g (t + pre) lf
                    ((h - used).fdiv units) w Orient.horizontal)).map
                      Region.height) := by
                apply List.map_congr_left
                intro r hr
                simp [padDim]
              have hmapne : ((leafRegions (subw g (t + pre) lf
                  ((h - used).fdiv units) w Orient.horizontal)).map
                    Region.height) ≠ [] := by
                simpa using hlne
              have hchb : 0 ≤ layoutSize Dim.height (subw g (t + pre) lf
                    ((h - used).fdiv units) w Orient.horizontal) ∧
                  layoutSize Dim.height (subw g (t + pre) lf
                    ((h - used).fdiv units) w Orient.horizontal) ≤
                    (h - used).fdiv units := by
                rw [hflat, hmapeq]
                apply maxList_bounds _ _ _ hmapne
                intro x hx
                rcases List.mem_map.mp hx with ⟨r, hr, hxe⟩
                subst hxe
                exact hleaf r hr
              simp only [cmplxPass, placePass, List.headD_cons,
                List.tail_cons, Option.getD_some, leafRegions]
              intro r hr
              rcases List.mem_append.mp hr with h1 | h2
              · have := hleaf r h1
                constructor
                · exact this.1
                · omega
              · refine ih sizes.tail _ _ _ _ hgrest hwrest
                  (tail_bound sizes h hsz) ?_ ?_ (by omega) r h2
                · omega
                · omega

lemma subw_heights :
    ∀ (n : Nat) (l : List LUnit), sizeOf l ≤ n →
      ∀ (t lf h w : Int) (o : Orient),
        (∀ u ∈ l, WfUnit u) → 0 ≤ h →
        ∀ r ∈ leafRegions (subw l t lf h w o),
          0 ≤ r.height ∧ r.height ≤ h := by
  intro n
  induction n with
  | zero =>
      intro l hsz
      cases l with
      | nil => simp at hsz
      | cons u rest => simp at hsz
  | succ n ih =>
      intro l hsz t lf h w o hwf hh
      have hg : ∀ g, LUnit.group g ∈ l →
          ∀ (t2 lf2 h2 w2 : Int) (o2 : Orient), 0 ≤ h2 →
            (∀ u ∈ g, WfUnit u) →
            ∀ r ∈ leafRegions (subw g t2 lf2 h2 w2 o2),
              0 ≤ r.height ∧ r.height ≤ h2 := by
        intro g hm t2 lf2 h2 w2 o2 hh2 hwg
        have hlt := sizeOf_group_mem hm
        exact ih g (by omega) t2 lf2 h2 w2 o2 hwg hh2
      cases o with
      | horizontal =>
          unfold subw
          exact heights_aux_horiz t lf h w hh l _ 0 _ _ 0 hg hwf
      | vertical =>
          have hib := immPass_bounds Orient.vertical h w
            (by simpa [axisExtent] using hh) l 0 (intLen l) hwf
            (le_refl 0) (by simpa [axisExtent] using hh)
            (countImms_le_len l)
          unfold subw
          refine heights_aux_vert t lf h w hh l _ 0 _ _ 0 hg hwf ?_ ?_ ?_
            (le_refl _)
          · intro s hs
            have := hib.1 s hs
            simpa [axisExtent] using this
          · exact le_trans (le_refl 0) hib.2.1
          · have := hib.2.2
            simpa [axisExtent] using this

lemma wf_exUnc : WfWin exUnc :=
  ⟨fun c hc => by simp [exUnc] at hc,
   fun c hc => by simp [exUnc] at hc,
   fun x hx => hx,
   fun x hx => hx⟩

/-- C4 counterexample: in the horizontal layout of a wrapped unconstrained
window next to an immediate one within width 10, the composite's recursive
solution is subw of the single window at candidate share 5 and its widest
window reaches extent 5, but the composite is charged only 4, as the
sizes list and the second window's offset show: the charge is the measured
layout size, one less than the maximum extent actually reached. -/
theorem claim4_counterexample :
    subwSizes exC4 0 0 5 10 Orient.horizontal = [4, 5] ∧
    leafRegions (subw exC4 0 0 5 10 Orient.horizontal) =
      [Region.mk 0 0 5 5, Region.mk 0 4 5 5] ∧
    maxList (leafWidths (subw [LUnit.leaf exUnc] 0 0 5 5
      Orient.vertical)) = 5 ∧
    ((4 : Int) ≠ 5) := by
  refine ⟨?_, ?_, ?_, by decide⟩ <;>
    simp [leafWidths, leafRegions, subwSizes, immPass, cmplxPass, subw,
      placePass, layoutSize, layoutMeasures, maxList, padDim,
      subw_size_height, subw_size_width, cfgOr, intLen, countGroups,
      isGroupU, exC4, exUnc]

/-- C4 amended: a composite is offered the remaining space divided by the
number of unresolved composites and solved recursively with the opposite
orientation, and the amount charged is the measured layout size of its
solution: along a vertical partition that is exactly the maximum height
any window in the solution reached, but along a horizontal partition it is
one less than the maximum width any window reached, because pads carry one
extra row but no extra column and the measurement subtracts one from each
dimension. -/
theorem claim4_amended :
    (∀ (t lf h w : Int) (g rest : List LUnit) (sizes : List Int)
        (pre used units : Int),
        (cmplxPass Orient.vertical t lf h w (LUnit.group g :: rest)
            sizes pre used units).1.headD Option.none =
          Option.some (subw g (t + pre) lf ((h - used).fdiv units) w
            Orient.horizontal)) ∧
    (∀ (t lf h w : Int) (g rest : List LUnit) (sizes : List Int)
        (pre used units : Int),
        (cmplxPass Orient.vertical t lf h w (LUnit.group g :: rest)
            sizes pre used units).2.1.headD 0 =
          layoutSize Dim.height (subw g (t + pre) lf
            ((h - used).fdiv units) w Orient.horizontal)) ∧
    (∀ (t lf h w : Int) (g rest : List LUnit) (sizes : List Int)
        (pre used units : Int),
        (cmplxPass Orient.horizontal t lf h w (LUnit.group g :: rest)
            sizes pre used units).1.headD Option.none =
          Option.some (subw g t (lf + pre) h ((w - used).fdiv units)
            Orient.vertical)) ∧
    (∀ (t lf h w : Int) (g rest : List LUnit) (sizes : List Int)
        (pre used units : Int),
        (cmplxPass Orient.horizontal t lf h w (LUnit.group g :: rest)
            sizes pre used units).2.1.headD 0 =
          layoutSize Dim.width (subw g t (lf + pre) h
            ((w - used).fdiv units) Orient.vertical)) ∧
    (∀ ps : List Placed, (∀ p ∈ ps, WfPlaced p) → ps ≠ [] →
        layoutSize Dim.height ps = maxList (leafHeights ps) ∧
        layoutSize Dim.width ps = maxList (leafWidths ps) - 1) := by
  refine ⟨?_, ?_, ?_, ?_, ?_⟩
  · intro t lf h w g rest sizes pre used units
    simp [cmplxPass]
  · intro t lf h w g rest sizes pre used units
    simp [cmplxPass]
  · intro t lf h w g rest sizes pre used units
    simp [cmplxPass]
  · intro t lf h w g rest sizes pre used units
    simp [cmplxPass]
  · intro ps hwf hne
    have hlne : leafRegions ps ≠ [] :=
      leafRegions_ne_nil (sizeOf ps) ps (le_refl _) hne hwf
    constructor
    · rw [layoutSize_flatten Dim.height (sizeOf ps) ps (le_refl _) hne hwf]
      unfold leafHeights
      congr 1
      apply List.map_congr_left
      intro r hr
      simp [padDim]
    · rw [layoutSize_flatten Dim.width (sizeOf ps) ps (le_refl _) hne hwf]
      unfold leafWidths
      have hmm : (leafRegions ps).map (fun r => padDim Dim.width r - 1) =
          ((leafRegions ps).map Region.width).map (fun x => x - 1) := by
        rw [List.map_map]
        apply List.map_congr_left
        intro r hr
        simp [padDim]
      rw [hmm, maxList_map_sub_one _ (by simpa using hlne)]

lemma placePassE_agree (o : Orient) (t lf h w : Int) :
    ∀ (l : List LUnit) (sizes : List Int)
      (rs : List (Option (List Placed))) (pre : Int) (out : List Placed),
      placePassE o t lf h w l sizes rs pre = Option.some out →
      placePass o t lf h w l sizes rs pre = out := by
  intro l
  induction l with
  | nil =>
      intro sizes rs pre out hE
      simp only [placePassE] at hE
      have := Option.some.inj hE
      subst this
      simp [placePass]
  | cons u rest ih =>
      intro sizes rs pre out hE
      cases u with
      | leaf v =>
          simp only [placePassE] at hE
          split at hE
          · cases hrec : placePassE o t lf h w rest sizes.tail rs.tail
                (pre + sizes.headD 0) with
            | none => rw [hrec] at hE; cases hE
            | some ps =>
                rw [hrec] at hE
                have := Option.some.inj hE
                subst this
                simp only [placePass]
                rw [ih _ _ _ _ hrec]
          · cases hE
      | group g =>
          simp only [placePassE] at hE
          cases hrec : placePassE o t lf h w rest sizes.tail rs.tail
              (pre + sizes.headD 0) with
          | none => rw [hrec] at hE; cases hE
          | some ps =>
              rw [hrec] at hE
              have := Option.some.inj hE
              subst this
              simp only [placePass]
              rw [ih _ _ _ _ hrec]

lemma cmplxPassE_agree_aux (o : Orient) (t lf h w : Int) :
    ∀ (l : List LUnit) (sizes : List Int) (pre used units : Int)
      (c : List (Option (List Placed)) × List Int × Int),
      (∀ g, LUnit.group g ∈ l →
        ∀ (t2 lf2 h2 w2 : Int) (o2 : Orient) (r : List Placed),
          subwE g t2 lf2 h2 w2 o2 = Option.some r →
          subw g t2 lf2 h2 w2 o2 = r) →
      cmplxPassE o t lf h w l sizes pre used units = Option.some c →
      cmplxPass o t lf h w l sizes pre used units = c := by
  intro l
  induction l with
  | nil =>
      intro sizes pre used units c hg hE
      simp only [cmplxPassE] at hE
      have := Option.some.inj hE
      subst this
      simp [cmplxPass]
  | cons u rest ih =>
      intro sizes pre used units c hg hE
      have hgrest : ∀ g, LUnit.group g ∈ rest →
          ∀ (t2 lf2 h2 w2 : Int) (o2 : Orient) (r : List Placed),
            subwE g t2 lf2 h2 w2 o2 = Option.some r →
            subw g t2 lf2 h2 w2 o2 = r :=
        fun g hm => hg g (List.mem_cons_of_mem _ hm)
      cases u with
      | leaf v =>
          simp only [cmplxPassE] at hE
          cases hrec : cmplxPassE o t lf h w rest sizes.tail
              (pre + sizes.headD 0) used units with
          | none => rw [hrec] at hE; cases hE
          | some c2 =>
              rw [hrec] at hE
              have := Option.some.inj hE
              subst this
              simp only [cmplxPass]
              rw [ih _ _ _ _ _ hgrest hrec]
      | group g =>
          have hsub := hg g (List.mem_cons_self _ _)
          cases o with
          | horizontal =>
              cases hr : subwE g t (lf + pre) h ((w - used).fdiv units)
                  Orient.vertical with
              | none => simp only [cmplxPassE, hr] at hE; cases hE
              | some r =>
                  cases hrec : cmplxPassE Orient.horizontal t lf h w rest
                      sizes.tail (pre + layoutSize Dim.width r)
                      (used + layoutSize Dim.width r) (units - 1) with
                  | none => simp only [cmplxPassE, hr, hrec] at hE; cases hE
                  | some c2 =>
                      simp only [cmplxPassE, hr, hrec,
                        Option.some.injEq] at hE
                      subst hE
                      simp only [cmplxPass]
                      rw [hsub _ _ _ _ _ _ hr]
                      rw [ih _ _ _ _ _ hgrest hrec]
          | vertical =>
              cases hr : subwE g (t + pre) lf ((h - used).fdiv units) w
                  Orient.horizontal with
              | none => simp only [cmplxPassE, hr] at hE; cases hE
              | some r =>
                  cases hrec : cmplxPassE Orient.vertical t lf h w rest
                      sizes.tail (pre + layoutSize Dim.height r)
                      (used + layoutSize Dim.height r) (units - 1) with
                  | none => simp only [cmplxPassE, hr, hrec] at hE; cases hE
                  | some c2 =>
                      simp only [cmplxPassE, hr, hrec,
                        Option.some.injEq] at hE
                      subst hE
                      simp only [cmplxPass]
                      rw [hsub _ _ _ _ _ _ hr]
                      rw [ih _ _ _ _ _ hgrest hrec]

lemma subwE_agree :
    ∀ (n : Nat) (l : List LUnit), sizeOf l ≤ n →
      ∀ (t lf h w : Int) (o : Orient) (out : List Placed),
        subwE l t lf h w o = Option.some out →
        subw l t lf h w o = out := by
  intro n
  induction n with
  | zero =>
      intro l hsz
      cases l with
      | nil => simp at hsz
      | cons u rest => simp at hsz
  | succ n ih =>
      intro l hsz t lf h w o out hE
      have hg : ∀ g, LUnit.group g ∈ l →
          ∀ (t2 lf2 h2 w2 : Int) (o2 : Orient) (r : List Placed),
            subwE g t2 lf2 h2 w2 o2 = Option.some r →
            subw g t2 lf2 h2 w2 o2 = r := by
        intro g hm t2 lf2 h2 w2 o2 r hr
        have hlt := sizeOf_group_mem hm
        exact ih g (by omega) t2 lf2 h2 w2 o2 r hr
      simp only [subwE] at hE
      cases hc : cmplxPassE o t lf h w l (immPass o h w 0 (intLen l) l).1 0
          (immPass o h w 0 (intLen l) l).2 (countGroups l) with
      | none => rw [hc] at hE; cases hE
      | some c =>
          rw [hc] at hE
          simp only [subw]
          rw [cmplxPassE_agree_aux o t lf h w l _ _ _ _ c hg hc]
          exact placePassE_agree o t lf h w l _ _ _ _ hE

lemma subwE_pos_aux (o : Orient) (t lf h w : Int) :
    ∀ (l : List LUnit) (sizes : List Int) (pre used units pre2 : Int)
      (c : List (Option (List Placed)) × List Int × Int)
      (out : List Placed),
      (∀ g, LUnit.group g ∈ l →
        ∀ (t2 lf2 h2 w2 : Int) (o2 : Orient) (r : List Placed),
          subwE g t2 lf2 h2 w2 o2 = Option.some r →
          ∀ reg ∈ leafRegions r, 0 ≤ reg.height ∧ 1 ≤ reg.width) →
      cmplxPassE o t lf h w l sizes pre used units = Option.some c →
      placePassE o t lf h w l c.2.1 c.1 pre2 = Option.some out →
      ∀ reg ∈ leafRegions out, 0 ≤ reg.height ∧ 1 ≤ reg.width := by
  intro l
  induction l with
  | nil =>
      intro sizes pre used units pre2 c out hg hc hp
      simp only [cmplxPassE] at hc
      have := Option.some.inj hc
      subst this
      simp only [placePassE] at hp
      have := Option.some.inj hp
      subst this
      simp [leafRegions]
  | cons u rest ih =>
      intro sizes pre used units pre2 c out hg hc hp
      have hgrest : ∀ g, LUnit.group g ∈ rest →
          ∀ (t2 lf2 h2 w2 : Int) (o2 : Orient) (r : List Placed),
            subwE g t2 lf2 h2 w2 o2 = Option.some r →
            ∀ reg ∈ leafRegions r, 0 ≤ reg.height ∧ 1 ≤ reg.width :=
        fun g hm => hg g (List.mem_cons_of_mem _ hm)
      cases u with
      | leaf v =>
          simp only [cmplxPassE] at hc
          cases hrec : cmplxPassE o t lf h w rest sizes.tail
              (pre + sizes.headD 0) used units with
          | none => rw [hrec] at hc; cases hc
          | some c2 =>
              rw [hrec] at hc
              have := Option.some.inj hc
              subst this
              simp only [placePassE, List.headD_cons, List.tail_cons] at hp
              split at hp
              · rename_i hguard
                cases hprec : placePassE o t lf h w rest c2.2.1 c2.1
                    (pre2 + sizes.headD 0) with
                | none => rw [hprec] at hp; cases hp
                | some ps =>
                    rw [hprec] at hp
                    have := Option.some.inj hp
                    subst this
                    simp only [leafRegions]
                    intro reg hreg
                    rcases List.mem_cons.mp hreg with h1 | h2
                    · subst h1
                      exact ⟨by omega, by omega⟩
                    · exact ih sizes.tail (pre + sizes.headD 0) used units
                        (pre2 + sizes.headD 0) c2 ps hgrest hrec hprec
                        reg h2
              · cases hp
      | group g =>
          have hsub := hg g (List.mem_cons_self _ _)
          cases o with
          | horizontal =>
              cases hr : subwE g t (lf + pre) h ((w - used).fdiv units)
                  Orient.vertical with
              | none => simp only [cmplxPassE, hr] at hc; cases hc
              | some r =>
                  cases hrec : cmplxPassE Orient.horizontal t lf h w rest
                      sizes.tail (pre + layoutSize Dim.width r)
                      (used + layoutSize Dim.width r) (units - 1) with
                  | none => simp only [cmplxPassE, hr, hrec] at hc; cases hc
                  | some c2 =>
                      simp only [cmplxPassE, hr, hrec,
                        Option.some.injEq] at hc
                      subst hc
                      simp only [placePassE, List.headD_cons,
                        List.tail_cons, Option.getD_some] at hp
                      cases hprec : placePassE Orient.horizontal t lf h w
                          rest c2.2.1 c2.1
                          (pre2 + layoutSize Dim.width r) with
                      | none => rw [hprec] at hp; cases hp
                      | some ps =>
                          rw [hprec] at hp
                          have := Option.some.inj hp
                          subst this
                          simp only [leafRegions]
                          intro reg hreg
                          rcases List.mem_append.mp hreg with h1 | h2
                          · exact hsub _ _ _ _ _ _ hr reg h1
                          · exact ih sizes.tail
                              (pre + layoutSize Dim.width r)
                              (used + layoutSize Dim.width r) (units - 1)
                              (pre2 + layoutSize Dim.width r) c2 ps hgrest
                              hrec hprec reg h2
          | vertical =>
              cases hr : subwE g (t + pre) lf ((h - used).fdiv units) w
                  Orient.horizontal with
              | none => simp only [cmplxPassE, hr] at hc; cases hc
              | some r =>
                  cases hrec : cmplxPassE Orient.vertical t lf h w rest
                      sizes.tail (pre + layoutSize Dim.height r)
                      (used + layoutSize Dim.height r) (units - 1) with
                  | none => simp only [cmplxPassE, hr, hrec] at hc; cases hc
                  | some c2 =>
                      simp only [cmplxPassE, hr, hrec,
                        Option.some.injEq] at hc
                      subst hc
                      simp only [placePassE, List.headD_cons,
                        List.tail_cons, Option.getD_some] at hp
                      cases hprec : placePassE Orient.vertical t lf h w
                          rest c2.2.1 c2.1
                          (pre2 + layoutSize Dim.height r) with
                      | none => rw [hprec] at hp; cases hp
                      | some ps =>
                          rw [hprec] at hp
                          have := Option.some.inj hp
                          subst this
                          simp only [leafRegions]
                          intro reg hreg
                          rcases List.mem_append.mp hreg with h1 | h2
                          · exact hsub _ _ _ _ _ _ hr reg h1
                          · exact ih sizes.tail
                              (pre + layoutSize Dim.height r)
                              (used + layoutSize Dim.height r) (units - 1)
                              (pre2 + layoutSize Dim.height r) c2 ps hgrest
                              hrec hprec reg h2

lemma subwE_pos :
    ∀ (n : Nat) (l : List LUnit), sizeOf l ≤ n →
      ∀ (t lf h w : Int) (o : Orient) (out : List Placed),
        subwE l t lf h w o = Option.some out →
        ∀ reg ∈ leafRegions out, 0 ≤ reg.height ∧ 1 ≤ reg.width := by
  intro n
  induction n with
  | zero =>
      intro l hsz
      cases l with
      | nil => simp at hsz
      | cons u rest => simp at hsz
  | succ n ih =>
      intro l hsz t lf h w o out hE
      have hg : ∀ g, LUnit.group g ∈ l →
          ∀ (t2 lf2 h2 w2 : Int) (o2 : Orient) (r : List Placed),
            subwE g t2 lf2 h2 w2 o2 = Option.some r →
            ∀ reg ∈ leafRegions r, 0 ≤ reg.height ∧ 1 ≤ reg.width := by
        intro g hm t2 lf2 h2 w2 o2 r hr
        have hlt := sizeOf_group_mem hm
        exact ih g (by omega) t2 lf2 h2 w2 o2 r hr
      simp only [subwE] at hE
      cases hc : cmplxPassE o t lf h w l (immPass o h w 0 (intLen l) l).1 0
          (immPass o h w 0 (intLen l) l).2 (countGroups l) with
      | none => rw [hc] at hE; cases hE
      | some c =>
          rw [hc] at hE
          exact subwE_pos_aux o t lf h w l _ 0 _ _ 0 c out hg hc hE

lemma charge_height_bound (r : List Placed) (avail : Int)
    (hwp : ∀ p ∈ r, WfPlaced p) (hne : r ≠ [])
    (hbnd : ∀ reg ∈ leafRegions r, 0 ≤ reg.height ∧ reg.height ≤ avail) :
    0 ≤ layoutSize Dim.height r ∧ layoutSize Dim.height r ≤ avail := by
  rw [layoutSize_flatten Dim.height (sizeOf r) r (le_refl _) hne hwp]
  have hmapeq : (leafRegions r).map (fun reg => padDim Dim.height reg - 1) =
      (leafRegions r).map Region.height := by
    apply List.map_congr_left
    intro reg hreg
    simp [padDim]
  rw [hmapeq]
  have hlne : leafRegions r ≠ [] :=
    leafRegions_ne_nil (sizeOf r) r (le_refl _) hne hwp
  apply maxList_bounds _ _ _ (by simpa using hlne)
  intro x hx
  rcases List.mem_map.mp hx with ⟨reg, hreg, hxe⟩
  subst hxe
  exact hbnd reg hreg

lemma charge_width_bound (r : List Placed) (avail : Int)
    (hwp : ∀ p ∈ r, WfPlaced p) (hne : r ≠ [])
    (hlo : ∀ reg ∈ leafRegions r, 1 ≤ reg.width)
    (hhi : ∀ reg ∈ leafRegions r, reg.width ≤ avail) :
    0 ≤ layoutSize Dim.width r ∧ layoutSize Dim.width r ≤ avail - 1 := by
  rw [layoutSize_flatten Dim.width (sizeOf r) r (le_refl _) hne hwp]
  have hmapeq : (leafRegions r).map (fun reg => padDim Dim.width reg - 1) =
      (leafRegions r).map (fun reg => reg.width - 1) := by
    apply List.map_congr_left
    intro reg hreg
    simp [padDim]
  rw [hmapeq]
  have hlne : leafRegions r ≠ [] :=
    leafRegions_ne_nil (sizeOf r) r (le_refl _) hne hwp
  apply maxList_bounds _ _ _ (by simpa using hlne)
  intro x hx
  rcases List.mem_map.mp hx with ⟨reg, hreg, hxe⟩
  subst hxe
  have h1 := hlo reg hreg
  have h2 := hhi reg hreg
  omega

lemma boundsE_aux_vert (t lf h w : Int) (hh : 0 ≤ h) (hw : 0 ≤ w) :
    ∀ (l : List LUnit) (sizes : List Int) (pre used units pre2 : Int)
      (c : List (Option (List Placed)) × List Int × Int)
      (out : List Placed),
      (∀ g, LUnit.group g ∈ l →
        ∀ (t2 lf2 h2 w2 : Int) (o2 : Orient) (r : List Placed),
          (∀ u ∈ g, WfUnit u) → 0 ≤ h2 → 0 ≤ w2 →
          subwE g t2 lf2 h2 w2 o2 = Option.some r →
          ∀ reg ∈ leafRegions r, reg.width ≤ w2) →
      (∀ u ∈ l, WfUnit u) →
      (∀ s ∈ sizes, 0 ≤ s ∧ s ≤ h) →
      0 ≤ used → used ≤ h → countGroups l ≤ units →
      cmplxPassE Orient.vertical t lf h w l sizes pre used units =
        Option.some c →
      placePassE Orient.vertical t lf h w l c.2.1 c.1 pre2 =
        Option.some out →
      (∀ reg ∈ leafRegions out, reg.width ≤ w) ∧
      used ≤ c.2.2 ∧ c.2.2 ≤ h := by
  intro l
  induction l with
  | nil =>
      intro sizes pre used units pre2 c out hg hwf hsz hu0 hue hcnt hc hp
      simp only [cmplxPassE] at hc
      have := Option.some.inj hc
      subst this
      simp only [placePassE] at hp
      have := Option.some.inj hp
      subst this
      simp only [leafRegions]
      exact ⟨fun reg hreg => absurd hreg (List.not_mem_nil reg),
        le_refl used, hue⟩
  | cons u rest ih =>
      intro sizes pre used units pre2 c out hg hwf hsz hu0 hue hcnt hc hp
      have hgrest : ∀ g, LUnit.group g ∈ rest →
          ∀ (t2 lf2 h2 w2 : Int) (o2 : Orient) (r : List Placed),
            (∀ u ∈ g, WfUnit u) → 0 ≤ h2 → 0 ≤ w2 →
            subwE g t2 lf2 h2 w2 o2 = Option.some r →
            ∀ reg ∈ leafRegions r, reg.width ≤ w2 :=
        fun g hm => hg g (List.mem_cons_of_mem _ hm)
      have hwrest : ∀ v ∈ rest, WfUnit v :=
        fun v hv => hwf v (List.mem_cons_of_mem _ hv)
      cases u with
      | leaf v =>
          have hcg : countGroups rest ≤ units := by
            simpa [countGroups, List.filter_cons, isGroupU] using hcnt
          simp only [cmplxPassE] at hc
          cases hrec : cmplxPassE Orient.vertical t lf h w rest sizes.tail
              (pre + sizes.headD 0) used units with
          | none => rw [hrec] at hc; cases hc
          | some c2 =>
              rw [hrec] at hc
              have := Option.some.inj hc
              subst this
              simp only [placePassE, List.headD_cons, List.tail_cons] at hp
              split at hp
              · cases hprec : placePassE Orient.vertical t lf h w rest
                    c2.2.1 c2.1 (pre2 + sizes.headD 0) with
                | none => rw [hprec] at hp; cases hp
                | some ps =>
                    rw [hprec] at hp
                    have := Option.some.inj hp
                    subst this
                    have hrest := ih sizes.tail (pre + sizes.headD 0) used
                      units (pre2 + sizes.headD 0) c2 ps hgrest hwrest
                      (tail_bound sizes h hsz) hu0 hue hcg hrec hprec
                    refine ⟨?_, hrest.2.1, hrest.2.2⟩
                    simp only [leafRegions]
                    intro reg hreg
                    rcases List.mem_cons.mp hreg with h1 | h2
                    · subst h1; exact le_refl w
                    · exact hrest.1 reg h2
              · cases hp
      | group g =>
          have hwg := hwf _ (List.mem_cons_self _ _)
          cases hwg with
          | group _ hgne hgwf =>
              have hcg1 : countGroups rest + 1 ≤ units := by
                have : countGroups (LUnit.group g :: rest) =
                    countGroups rest + 1 := by
                  simp [countGroups, List.filter_cons, isGroupU, intLen]
                omega
              have hcgn : 0 ≤ countGroups rest := by
                simp [countGroups, intLen]
              have hu1 : 1 ≤ units := by omega
              have havn : 0 ≤ (h - used).fdiv units :=
                Int.fdiv_nonneg (by omega) (by omega)
              have havle : (h - used).fdiv units ≤ h - used :=
                fdiv_le_self_of _ _ (by omega) (by omega)
              cases hr : subwE g (t + pre) lf ((h - used).fdiv units) w
                  Orient.horizontal with
              | none => simp only [cmplxPassE, hr] at hc; cases hc
              | some r =>
                  have hag : subw g (t + pre) lf ((h - used).fdiv units) w
                      Orient.horizontal = r :=
                    subwE_agree (sizeOf g) g (le_refl _) _ _ _ _ _ _ hr
                  have hshape := subw_shape (sizeOf g) g (le_refl _)
                    (t + pre) lf ((h - used).fdiv units) w
                    Orient.horizontal hgwf
                  rw [hag] at hshape
                  have hrne : r ≠ [] := by
                    intro habs
                    have := hshape.2
                    rw [habs] at this
                    simp at this
                    exact hgne (List.length_eq_zero.mp this.symm)
                  have hhei := subw_heights (sizeOf g) g (le_refl _)
                    (t + pre) lf ((h - used).fdiv units) w
                    Orient.horizontal hgwf havn
                  rw [hag] at hhei
                  have hch := charge_height_bound r ((h - used).fdiv units)
                    hshape.1 hrne hhei
                  have hwid : ∀ reg ∈ leafRegions r, reg.width ≤ w :=
                    hg g (List.mem_cons_self _ _) (t + pre) lf
                      ((h - used).fdiv units) w Orient.horizontal r hgwf
                      havn hw hr
                  cases hrec : cmplxPassE Orient.vertical t lf h w rest
                      sizes.tail (pre + layoutSize Dim.height r)
                      (used + layoutSize Dim.height r) (units - 1) with
                  | none => simp only [cmplxPassE, hr, hrec] at hc; cases hc
                  | some c2 =>
                      simp only [cmplxPassE, hr, hrec,
                        Option.some.injEq] at hc
                      subst hc
                      simp only [placePassE, List.headD_cons,
                        List.tail_cons, Option.getD_some] at hp
                      cases hprec : placePassE Orient.vertical t lf h w
                          rest c2.2.1 c2.1
                          (pre2 + layoutSize Dim.height r) with
                      | none => rw [hprec] at hp; cases hp
                      | some ps =>
                          rw [hprec] at hp
                          have := Option.some.inj hp
                          subst this
                          have hrest := ih sizes.tail
                            (pre + layoutSize Dim.height r)
                            (used + layoutSize Dim.height r) (units - 1)
                            (pre2 + layoutSize Dim.height r) c2 ps hgrest
                            hwrest (tail_bound sizes h hsz)
                            (by omega) (by omega) (by omega) hrec hprec
                          refine ⟨?_, ?_, hrest.2.2⟩
                          · simp only [leafRegions]
                            intro reg hreg
                            rcases List.mem_append.mp hreg with h1 | h2
                            · exact hwid reg h1
                            · exact hrest.1 reg h2
                          · show used ≤ c2.2.2
                            have := hrest.2.1
                            omega

lemma boundsE_aux_horiz (t lf h w : Int) (hh : 0 ≤ h) (hw : 0 ≤ w) :
    ∀ (l : List LUnit) (sizes : List Int) (pre used units pre2 : Int)
      (c : List (Option (List Placed)) × List Int × Int)
      (out : List Placed),
      (∀ g, LUnit.group g ∈ l →
        ∀ (t2 lf2 h2 w2 : Int) (o2 : Orient) (r : List Placed),
          (∀ u ∈ g, WfUnit u) → 0 ≤ h2 → 0 ≤ w2 →
          subwE g t2 lf2 h2 w2 o2 = Option.some r →
          ∀ reg ∈ leafRegions r, reg.width ≤ w2) →
      (∀ u ∈ l, WfUnit u) →
      (∀ s ∈ sizes, 0 ≤ s ∧ s ≤ w) →
      0 ≤ used → used ≤ w → countGroups l ≤ units →
      cmplxPassE Orient.horizontal t lf h w l sizes pre used units =
        Option.some c →
      placePassE Orient.horizontal t lf h w l c.2.1 c.1 pre2 =
        Option.some out →
      (∀ reg ∈ leafRegions out, reg.width ≤ w) ∧
      used ≤ c.2.2 ∧ c.2.2 ≤ w := by
  intro l
  induction l with
  | nil =>
      intro sizes pre used units pre2 c out hg hwf hsz hu0 hue hcnt hc hp
      simp only [cmplxPassE] at hc
      have := Option.some.inj hc
      subst this
      simp only [placePassE] at hp
      have := Option.some.inj hp
      subst this
      simp only [leafRegions]
      exact ⟨fun reg hreg => absurd hreg (List.not_mem_nil reg),
        le_refl used, hue⟩
  | cons u rest ih =>
      intro sizes pre used units pre2 c out hg hwf hsz hu0 hue hcnt hc hp
      have hgrest : ∀ g, LUnit.group g ∈ rest →
          ∀ (t2 lf2 h2 w2 : Int) (o2 : Orient) (r : List Placed),
            (∀ u ∈ g, WfUnit u) → 0 ≤ h2 → 0 ≤ w2 →
            subwE g t2 lf2 h2 w2 o2 = Option.some r →
            ∀ reg ∈ leafRegions r, reg.width ≤ w2 :=
        fun g hm => hg g (List.mem_cons_of_mem _ hm)
      have hwrest : ∀ v ∈ rest, WfUnit v :=
        fun v hv => hwf v (List.mem_cons_of_mem _ hv)
      cases u with
      | leaf v =>
          have hcg : countGroups rest ≤ units := by
            simpa [countGroups, List.filter_cons, isGroupU] using hcnt
          simp only [cmplxPassE] at hc
          cases hrec : cmplxPassE Orient.horizontal t lf h w rest
              sizes.tail (pre + sizes.headD 0) used units with
          | none => rw [hrec] at hc; cases hc
          | some c2 =>
              rw [hrec] at hc
              have := Option.some.inj hc
              subst this
              simp only [placePassE, List.headD_cons, List.tail_cons] at hp
              split at hp
              · cases hprec : placePassE Orient.horizontal t lf h w rest
                    c2.2.1 c2.1 (pre2 + sizes.headD 0) with
                | none => rw [hprec] at hp; cases hp
                | some ps =>
                    rw [hprec] at hp
                    have := Option.some.inj hp
                    subst this
                    have hrest := ih sizes.tail (pre + sizes.headD 0) used
                      units (pre2 + sizes.headD 0) c2 ps hgrest hwrest
                      (tail_bound sizes w hsz) hu0 hue hcg hrec hprec
                    refine ⟨?_, hrest.2.1, hrest.2.2⟩
                    simp only [leafRegions]
                    intro reg hreg
                    rcases List.mem_cons.mp hreg with h1 | h2
                    · subst h1
                      exact (headD_bound sizes w hsz hw).2
                    · exact hrest.1 reg h2
              · cases hp
      | group g =>
          have hwg := hwf _ (List.mem_cons_self _ _)
          cases hwg with
          | group _ hgne hgwf =>
              have hcg1 : countGroups rest + 1 ≤ units := by
                have : countGroups (LUnit.group g :: rest) =
                    countGroups rest + 1 := by
                  simp [countGroups, List.filter_cons, isGroupU, intLen]
                omega
              have hcgn : 0 ≤ countGroups rest := by
                simp [countGroups, intLen]
              have hu1 : 1 ≤ units := by omega
              have havn : 0 ≤ (w - used).fdiv units :=
                Int.fdiv_nonneg (by omega) (by omega)
              have havle : (w - used).fdiv units ≤ w - used :=
                fdiv_le_self_of _ _ (by omega) (by omega)
              cases hr : subwE g t (lf + pre) h ((w - used).fdiv units)
                  Orient.vertical with
              | none => simp only [cmplxPassE, hr] at hc; cases hc
              | some r =>
                  have hag : subw g t (lf + pre) h ((w - used).fdiv units)
                      Orient.vertical = r :=
                    subwE_agree (sizeOf g) g (le_refl _) _ _ _ _ _ _ hr
                  have hshape := subw_shape (sizeOf g) g (le_refl _)
                    t (lf + pre) h ((w - used).fdiv units)
                    Orient.vertical hgwf
                  rw [hag] at hshape
                  have hrne : r ≠ [] := by
                    intro habs
                    have := hshape.2
                    rw [habs] at this
                    simp at this
                    exact hgne (List.length_eq_zero.mp this.symm)
                  have hwhi : ∀ reg ∈ leafRegions r, reg.width ≤
                      (w - used).fdiv units :=
                    hg g (List.mem_cons_self _ _) t (lf + pre) h
                      ((w - used).fdiv units) Orient.vertical r hgwf hh
                      havn hr
                  have hwlo : ∀ reg ∈ leafRegions r, 1 ≤ reg.width :=
                    fun reg hreg =>
                      (subwE_pos (sizeOf g) g (le_refl _) _ _ _ _ _ _ hr
                        reg hreg).2
                  have hch := charge_width_bound r ((w - used).fdiv units)
                    hshape.1 hrne hwlo hwhi
                  cases hrec : cmplxPassE Orient.horizontal t lf h w rest
                      sizes.tail (pre + layoutSize Dim.width r)
                      (used + layoutSize Dim.width r) (units - 1) with
                  | none => simp only [cmplxPassE, hr, hrec] at hc; cases hc
                  | some c2 =>
                      simp only [cmplxPassE, hr, hrec,
                        Option.some.injEq] at hc
                      subst hc
                      simp only [placePassE, List.headD_cons,
                        List.tail_cons, Option.getD_some] at hp
                      cases hprec : placePassE Orient.horizontal t lf h w
                          rest c2.2.1 c2.1
                          (pre2 + layoutSize Dim.width r) with
                      | none => rw [hprec] at hp; cases hp
                      | some ps =>
                          rw [hprec] at hp
                          have := Option.some.inj hp
                          subst this
                          have hrest := ih sizes.tail
                            (pre + layoutSize Dim.width r)
                            (used + layoutSize Dim.width r) (units - 1)
                            (pre2 + layoutSize Dim.width r) c2 ps hgrest
                            hwrest (tail_bound sizes w hsz)
                            (by omega) (by omega) (by omega) hrec hprec
                          refine ⟨?_, ?_, hrest.2.2⟩
                          · simp only [leafRegions]
                            intro reg hreg
                            rcases List.mem_append.mp hreg with h1 | h2
                            · have := hwhi reg h1
                              omega
                            · exact hrest.1 reg h2
                          · show used ≤ c2.2.2
                            have := hrest.2.1
                            omega

lemma subwE_bounds :
    ∀ (n : Nat) (l : List LUnit), sizeOf l ≤ n →
      ∀ (t lf h w : Int) (o : Orient)
        (c : List (Option (List Placed)) × List Int × Int)
        (out : List Placed),
        (∀ u ∈ l, WfUnit u) → 0 ≤ h → 0 ≤ w →
        cmplxPassE o t lf h w l (immPass o h w 0 (intLen l) l).1 0
          (immPass o h w 0 (intLen l) l).2 (countGroups l) =
          Option.some c →
        placePassE o t lf h w l c.2.1 c.1 0 = Option.some out →
        (∀ reg ∈ leafRegions out, reg.width ≤ w) ∧
        c.2.2 ≤ axisExtent o h w := by
  intro n
  induction n with
  | zero =>
      intro l hsz
      cases l with
      | nil => simp at hsz
      | cons u rest => simp at hsz
  | succ n ih =>
      intro l hsz t lf h w o c out hwf hh hw hc hp
      have hg : ∀ g, LUnit.group g ∈ l →
          ∀ (t2 lf2 h2 w2 : Int) (o2 : Orient) (r : List Placed),
            (∀ u ∈ g, WfUnit u) → 0 ≤ h2 → 0 ≤ w2 →
            subwE g t2 lf2 h2 w2 o2 = Option.some r →
            ∀ reg ∈ leafRegions r, reg.width ≤ w2 := by
        intro g hm t2 lf2 h2 w2 o2 r hwg hh2 hw2 hr
        have hlt := sizeOf_group_mem hm
        have hr2 := hr
        simp only [subwE] at hr2
        cases hc2 : cmplxPassE o2 t2 lf2 h2 w2 g
            (immPass o2 h2 w2 0 (intLen g) g).1 0
            (immPass o2 h2 w2 0 (intLen g) g).2 (countGroups g) with
        | none => rw [hc2] at hr2; cases hr2
        | some cg =>
            rw [hc2] at hr2
            exact (ih g (by omega) t2 lf2 h2 w2 o2 cg r hwg hh2 hw2
              hc2 hr2).1
      cases o with
      | vertical =>
          have hib := immPass_bounds Orient.vertical h w
            (by simpa [axisExtent] using hh) l 0 (intLen l) hwf
            (le_refl 0) (by simpa [axisExtent] using hh)
            (countImms_le_len l)
          have := boundsE_aux_vert t lf h w hh hw l _ 0 _ _ 0 c out hg hwf
            (fun s hs => by
              have := hib.1 s hs
              simpa [axisExtent] using this)
            (le_trans (le_refl 0) hib.2.1)
            (by
              have := hib.2.2
              simpa [axisExtent] using this)
            (le_refl _) hc hp
          exact ⟨this.1, by simpa [axisExtent] using this.2.2⟩
      | horizontal =>
          have hib := immPass_bounds Orient.horizontal h w
            (by simpa [axisExtent] using hw) l 0 (intLen l) hwf
            (le_refl 0) (by simpa [axisExtent] using hw)
            (countImms_le_len l)
          have := boundsE_aux_horiz t lf h w hh hw l _ 0 _ _ 0 c out hg hwf
            (fun s hs => by
              have := hib.1 s hs
              simpa [axisExtent] using this)
            (le_trans (le_refl 0) hib.2.1)
            (by
              have := hib.2.2
              simpa [axisExtent] using this)
            (le_refl _) hc hp
          exact ⟨this.1, by simpa [axisExtent] using this.2.2⟩

lemma tail_sum_le (sizes : List Int) (h : ∀ s ∈ sizes, 0 ≤ s) :
    sizes.tail.sum ≤ sizes.sum := by
  cases sizes with
  | nil => simp
  | cons a ss =>
      simp only [List.tail_cons, List.sum_cons]
      have := h a (List.mem_cons_self _ _)
      omega

lemma headD_tail_sum (sizes : List Int) :
    sizes.headD 0 + sizes.tail.sum ≤ sizes.sum := by
  cases sizes with
  | nil => simp
  | cons a ss => simp

lemma cmplxPassE_sum_le (o : Orient) (t lf h w : Int) :
    ∀ (l : List LUnit) (sizes : List Int) (pre used units : Int)
      (c : List (Option (List Placed)) × List Int × Int),
      (∀ s ∈ sizes, 0 ≤ s) →
      cmplxPassE o t lf h w l sizes pre used units = Option.some c →
      c.2.1.sum ≤ sizes.sum + (c.2.2 - used) := by
  intro l
  induction l with
  | nil =>
      intro sizes pre used units c hnn hc
      simp only [cmplxPassE] at hc
      have := Option.some.inj hc
      subst this
      simp only [List.sum_nil]
      have := List.sum_nonneg hnn
      omega
  | cons u rest ih =>
      intro sizes pre used units c hnn hc
      have hnt : ∀ s ∈ sizes.tail, 0 ≤ s :=
        fun s hs => hnn s (List.mem_of_mem_tail hs)
      cases u with
      | leaf v =>
          simp only [cmplxPassE] at hc
          cases hrec : cmplxPassE o t lf h w rest sizes.tail
              (pre + sizes.headD 0) used units with
          | none => rw [hrec] at hc; cases hc
          | some c2 =>
              rw [hrec] at hc
              have := Option.some.inj hc
              subst this
              simp only [List.sum_cons]
              have h1 := ih sizes.tail (pre + sizes.headD 0) used units c2
                hnt hrec
              have h2 := headD_tail_sum sizes
              omega
      | group g =>
          cases o with
          | horizontal =>
              cases hr : subwE g t (lf + pre) h ((w - used).fdiv units)
                  Orient.vertical with
              | none => simp only [cmplxPassE, hr] at hc; cases hc
              | some r =>
                  cases hrec : cmplxPassE Orient.horizontal t lf h w rest
                      sizes.tail (pre + layoutSize Dim.width r)
                      (used + layoutSize Dim.width r) (units - 1) with
                  | none => simp only [cmplxPassE, hr, hrec] at hc; cases hc
                  | some c2 =>
                      simp only [cmplxPassE, hr, hrec,
                        Option.some.injEq] at hc
                      subst hc
                      simp only [List.sum_cons]
                      have h1 := ih sizes.tail
                        (pre + layoutSize Dim.width r)
                        (used + layoutSize Dim.width r) (units - 1) c2
                        hnt hrec
                      have h2 := tail_sum_le sizes hnn
                      omega
          | vertical =>
              cases hr : subwE g (t + pre) lf ((h - used).fdiv units) w
                  Orient.horizontal with
              | none => simp only [cmplxPassE, hr] at hc; cases hc
              | some r =>
                  cases hrec : cmplxPassE Orient.vertical t lf h w rest
                      sizes.tail (pre + layoutSize Dim.height r)
                      (used + layoutSize Dim.height r) (units - 1) with
                  | none => simp only [cmplxPassE, hr, hrec] at hc; cases hc
                  | some c2 =>
                      simp only [cmplxPassE, hr, hrec,
                        Option.some.injEq] at hc
                      subst hc
                      simp only [List.sum_cons]
                      have h1 := ih sizes.tail
                        (pre + layoutSize Dim.height r)
                        (used + layoutSize Dim.height r) (units - 1) c2
                        hnt hrec
                      have h2 := tail_sum_le sizes hnn
                      omega

/-- C3: for every well formed layout tree (non-negative configured and
requested sizes, nonempty groups) and every bounds rectangle with
non-negative extents, on every layout pass that completes (curses.newpad
succeeded for every window; nothing in Screen catches curses.error, so a
failing pad aborts the pass before any region is handed out), the resolved
sizes of the invocation's sibling children sum to at most the extent along
the partition axis, and every allocated dimension is non-negative. -/
theorem claim3_allocation_bounds :
    ∀ (l : List LUnit) (top left height width : Int) (o : Orient)
      (ps : List Placed) (sizes : List Int),
      (∀ u ∈ l, WfUnit u) → 0 ≤ height → 0 ≤ width →
      subwE l top left height width o = Option.some ps →
      subwSizesE l top left height width o = Option.some sizes →
      sizes.sum ≤ axisExtent o height width ∧
      (∀ r ∈ leafRegions ps, 0 ≤ r.height ∧ 0 ≤ r.width) := by
  intro l t lf h w o ps sizes hwf hh hw hE hS
  have hE0 := hE
  simp only [subwE] at hE
  simp only [subwSizesE] at hS
  cases hc : cmplxPassE o t lf h w l (immPass o h w 0 (intLen l) l).1 0
      (immPass o h w 0 (intLen l) l).2 (countGroups l) with
  | none => rw [hc] at hE; cases hE
  | some c =>
      rw [hc] at hE hS
      have hsizes : c.2.1 = sizes := Option.some.inj hS
      have hext : 0 ≤ axisExtent o h w := by
        cases o
        · simpa [axisExtent] using hw
        · simpa [axisExtent] using hh
      have hib := immPass_bounds o h w hext l 0 (intLen l) hwf (le_refl 0)
        hext (countImms_le_len l)
      have hb := subwE_bounds (sizeOf l) l (le_refl _) t lf h w o c ps hwf
        hh hw hc hE
      constructor
      · have hsum := cmplxPassE_sum_le o t lf h w l _ 0 _ _ c
          (fun s hs => (hib.1 s hs).1) hc
        have hisum := immPass_sum o h w l 0 (intLen l)
        have h1 := hb.2
        rw [← hsizes]
        omega
      · intro r hr
        have hag := subwE_agree (sizeOf l) l (le_refl _) t lf h w o ps hE0
        constructor
        · have := subw_heights (sizeOf l) l (le_refl _) t lf h w o hwf hh
            r (by rw [hag]; exact hr)
          exact this.1
        · have := subwE_pos (sizeOf l) l (le_refl _) t lf h w o ps hE0 r hr
          omega

/-- Witness for C3 at two unconstrained tiles stacked vertically in a
30 by 80 bounds: the pass completes with heights 15 and 15 summing to at
most 30. -/
theorem claim3_allocation_bounds_witness :
    (∀ u ∈ [LUnit.leaf exUnc, LUnit.leaf exUnc], WfUnit u) ∧
    ((0 : Int) ≤ 30) ∧ ((0 : Int) ≤ 80) ∧
    subwE [LUnit.leaf exUnc, LUnit.leaf exUnc] 0 0 30 80 Orient.vertical =
      Option.some [Placed.leaf exUnc (Region.mk 0 0 15 80),
        Placed.leaf exUnc (Region.mk 15 0 15 80)] ∧
    subwSizesE [LUnit.leaf exUnc, LUnit.leaf exUnc] 0 0 30 80
      Orient.vertical = Option.some [15, 15] ∧
    (([15, 15] : List Int).sum ≤ axisExtent Orient.vertical 30 80 ∧
     (∀ r ∈ leafRegions [Placed.leaf exUnc (Region.mk 0 0 15 80),
         Placed.leaf exUnc (Region.mk 15 0 15 80)],
       0 ≤ r.height ∧ 0 ≤ r.width)) :=
  ⟨fun u hu => by
      simp at hu
      subst hu
      exact WfUnit.leaf _ wf_exUnc,
   by decide, by decide,
   by
     simp [subwE, cmplxPassE, placePassE, immPass, subw_size_height,
       cfgOr, intLen, countGroups, isGroupU, exUnc],
   by
     simp [subwSizesE, cmplxPassE, immPass, subw_size_height, cfgOr,
       intLen, countGroups, isGroupU, exUnc],
   claim3_allocation_bounds [LUnit.leaf exUnc, LUnit.leaf exUnc] 0 0 30 80
     Orient.vertical
     [Placed.leaf exUnc (Region.mk 0 0 15 80),
      Placed.leaf exUnc (Region.mk 15 0 15 80)]
     [15, 15]
     (fun u hu => by
        simp at hu
        subst hu
        exact WfUnit.leaf _ wf_exUnc)
     (by decide) (by decide)
     (by
       simp [subwE, cmplxPassE, placePassE, immPass, subw_size_height,
         cfgOr, intLen, countGroups, isGroupU, exUnc])
     (by
       simp [subwSizesE, cmplxPassE, immPass, subw_size_height, cfgOr,
         intLen, countGroups, isGroupU, exUnc])⟩

/-- Witness for the amended C4 at a single placed window of height 5 and
width 5: the height measure is 5 and the width measure is 4. -/
theorem claim4_amended_witness :
    (∀ p ∈ [Placed.leaf exUnc (Region.mk 0 0 5 5)], WfPlaced p) ∧
    ([Placed.leaf exUnc (Region.mk 0 0 5 5)] ≠ ([] : List Placed)) ∧
    (layoutSize Dim.height [Placed.leaf exUnc (Region.mk 0 0 5 5)] =
        maxList (leafHeights [Placed.leaf exUnc (Region.mk 0 0 5 5)]) ∧
      layoutSize Dim.width [Placed.leaf exUnc (Region.mk 0 0 5 5)] =
        maxList (leafWidths [Placed.leaf exUnc (Region.mk 0 0 5 5)]) - 1) :=
  ⟨fun p hp => by
      simp at hp
      subst hp
      exact WfPlaced.leaf _ _,
   by simp,
   claim4_amended.2.2.2.2 [Placed.leaf exUnc (Region.mk 0 0 5 5)]
     (fun p hp => by
        simp at hp
        subst hp
        exact WfPlaced.leaf _ _)
     (by simp)⟩

end Canto
